import Mathlib

/-!
Shallow embedding of the glottisdale speak/language core
(crates/core/src/speak/{phonetic_distance,syllable_bank,matcher,assembler}.rs
and crates/core/src/language/syllabify_arpabet.rs) together with proofs
settling the specification claims about it.

Real-valued quantities (f64 in the source) are modelled as rationals; machine
integers (i32, usize, u8) as Int/Nat.  All definitions are executable.
-/

namespace Glottisdale

/-! ## phonetic_distance.rs -/

/-- Strip trailing stress marker digits (is_ascii_digit) from an ARPABET
phoneme. -/
def strip_stress (p : String) : String :=
  String.mk ((p.toList.reverse.dropWhile Char.isDigit).reverse)

/-- IPA-to-ARPABET mapping, in source order (diphthongs first). -/
def IPA_TO_ARPABET : List (String × String) :=
  [ ("aɪ", "AY"), ("aʊ", "AW"), ("eɪ", "EY"), ("oʊ", "OW"), ("ɔɪ", "OY"),
    ("i", "IY"), ("ɪ", "IH"), ("e", "EY"), ("ɛ", "EH"), ("æ", "AE"),
    ("ɑ", "AA"), ("ɒ", "AA"), ("ɔ", "AO"), ("o", "OW"), ("ʊ", "UH"),
    ("u", "UW"), ("ə", "AH"), ("ɜ", "ER"), ("ɐ", "AH"), ("ʌ", "AH"),
    ("a", "AA"),
    ("p", "P"), ("b", "B"), ("t", "T"), ("d", "D"), ("k", "K"), ("g", "G"),
    ("m", "M"), ("n", "N"), ("ŋ", "NG"), ("ɲ", "N"), ("ɴ", "NG"),
    ("f", "F"), ("v", "V"), ("θ", "TH"), ("ð", "DH"), ("s", "S"),
    ("z", "Z"), ("ʃ", "SH"), ("ʒ", "ZH"), ("h", "HH"), ("ɦ", "HH"),
    ("ç", "HH"), ("x", "HH"), ("ɣ", "G"),
    ("l", "L"), ("ɫ", "L"), ("ɬ", "L"), ("ɮ", "L"),
    ("r", "R"), ("ɹ", "R"), ("ɾ", "R"), ("ɽ", "R"), ("ʁ", "R"), ("ʀ", "R"),
    ("j", "Y"), ("w", "W"), ("ɥ", "W") ]

/-- Articulatory features of each ARPABET phoneme.  The source stores a slice
whose element 0 is the type tag and whose remaining elements are the other
features; we store that split explicitly as a pair. -/
def FEATURES : List (String × (String × List String)) :=
  [ ("P",  ("consonant", ["stop", "bilabial", "voiceless"])),
    ("B",  ("consonant", ["stop", "bilabial", "voiced"])),
    ("T",  ("consonant", ["stop", "alveolar", "voiceless"])),
    ("D",  ("consonant", ["stop", "alveolar", "voiced"])),
    ("K",  ("consonant", ["stop", "velar", "voiceless"])),
    ("G",  ("consonant", ["stop", "velar", "voiced"])),
    ("F",  ("consonant", ["fricative", "labiodental", "voiceless"])),
    ("V",  ("consonant", ["fricative", "labiodental", "voiced"])),
    ("TH", ("consonant", ["fricative", "dental", "voiceless"])),
    ("DH", ("consonant", ["fricative", "dental", "voiced"])),
    ("S",  ("consonant", ["fricative", "alveolar", "voiceless"])),
    ("Z",  ("consonant", ["fricative", "alveolar", "voiced"])),
    ("SH", ("consonant", ["fricative", "postalveolar", "voiceless"])),
    ("ZH", ("consonant", ["fricative", "postalveolar", "voiced"])),
    ("HH", ("consonant", ["fricative", "glottal", "voiceless"])),
    ("CH", ("consonant", ["affricate", "postalveolar", "voiceless"])),
    ("JH", ("consonant", ["affricate", "postalveolar", "voiced"])),
    ("M",  ("consonant", ["nasal", "bilabial", "voiced"])),
    ("N",  ("consonant", ["nasal", "alveolar", "voiced"])),
    ("NG", ("consonant", ["nasal", "velar", "voiced"])),
    ("L",  ("consonant", ["liquid", "alveolar", "voiced"])),
    ("R",  ("consonant", ["liquid", "postalveolar", "voiced"])),
    ("W",  ("consonant", ["glide", "bilabial", "voiced"])),
    ("Y",  ("consonant", ["glide", "palatal", "voiced"])),
    ("IY", ("vowel", ["high", "front", "unrounded", "tense"])),
    ("IH", ("vowel", ["high", "front", "unrounded", "lax"])),
    ("EY", ("vowel", ["mid", "front", "unrounded", "tense"])),
    ("EH", ("vowel", ["mid", "front", "unrounded", "lax"])),
    ("AE", ("vowel", ["low", "front", "unrounded", "lax"])),
    ("AA", ("vowel", ["low", "back", "unrounded", "tense"])),
    ("AH", ("vowel", ["mid", "central", "unrounded", "lax"])),
    ("AO", ("vowel", ["mid", "back", "rounded", "tense"])),
    ("OW", ("vowel", ["mid", "back", "rounded", "tense"])),
    ("UH", ("vowel", ["high", "back", "rounded", "lax"])),
    ("UW", ("vowel", ["high", "back", "rounded", "tense"])),
    ("AW", ("vowel", ["low", "central", "unrounded", "tense"])),
    ("AY", ("vowel", ["low", "central", "unrounded", "tense"])),
    ("OY", ("vowel", ["mid", "back", "rounded", "tense"])),
    ("ER", ("vowel", ["mid", "central", "rounded", "tense"])) ]

def CROSS_TYPE_DISTANCE : ℤ := 5

/-- Convert an IPA phoneme to ARPABET if possible, passthrough otherwise. -/
def normalize_phoneme (p : String) : String :=
  if p = "" then p
  else
    let base := strip_stress p
    if base ≠ "" ∧ base.toList.all (fun c => c.toNat < 128)
        ∧ base.toList.all Char.isUpper then p
    else
      let cleaned := String.mk
        ((p.toList.reverse.dropWhile (fun c => c = 'ː' ∨ c = 'ˑ')).reverse)
      match IPA_TO_ARPABET.find? (fun q => cleaned.startsWith q.1) with
      | some q => q.2
      | none => p

/-- Articulatory feature distance between two ARPABET phonemes; stress markers
are ignored, unknown symbols and cross-type pairs give the fixed constant 5. -/
def phoneme_distance (a b : String) : ℤ :=
  let a_base := strip_stress a
  let b_base := strip_stress b
  if a_base = b_base then 0
  else
    match FEATURES.lookup a_base, FEATURES.lookup b_base with
    | some fa, some fb =>
        if fa.1 ≠ fb.1 then CROSS_TYPE_DISTANCE
        else (((fa.2.zip fb.2).filter (fun q => decide (q.1 ≠ q.2))).length : ℤ)
    | _, _ => CROSS_TYPE_DISTANCE

/-- Distance between two syllables: positionwise sum over the longer length,
a position missing on either side contributing the cross-type constant. -/
def syllable_distance (a b : List String) : ℤ :=
  let max_len := max a.length b.length
  if max_len = 0 then 0
  else ((List.range max_len).map (fun i =>
    match a.get? i, b.get? i with
    | some pa, some pb => phoneme_distance pa pb
    | _, _ => CROSS_TYPE_DISTANCE)).sum

/-! ### Helper lemmas for C7 -/

theorem zip_filter_ne_length_comm (l1 l2 : List String) :
    ((l1.zip l2).filter (fun q => !decide (q.1 = q.2))).length
      = ((l2.zip l1).filter (fun q => !decide (q.1 = q.2))).length := by
  induction l1 generalizing l2 with
  | nil => cases l2 <;> simp
  | cons x xs ih =>
    cases l2 with
    | nil => simp
    | cons y ys =>
      by_cases h : x = y
      · subst h
        simp [ih ys]
      · have h2 : ¬ y = x := fun hyx => h hyx.symm
        simp [h, h2, ih ys]

theorem phoneme_distance_symm (a b : String) :
    phoneme_distance a b = phoneme_distance b a := by
  unfold phoneme_distance
  by_cases h : strip_stress a = strip_stress b
  · rw [if_pos h, if_pos h.symm]
  · have h2 : ¬ strip_stress b = strip_stress a := fun hc => h hc.symm
    rw [if_neg h, if_neg h2]
    cases hfa : FEATURES.lookup (strip_stress a) with
    | none => cases hfb : FEATURES.lookup (strip_stress b) <;> simp
    | some fa =>
      cases hfb : FEATURES.lookup (strip_stress b) with
      | none => simp
      | some fb =>
        by_cases ht : fa.1 = fb.1
        · simp only [ht, ne_eq, not_true_eq_false, if_false]
          simp only [ne_eq, decide_not]
          exact congrArg Int.ofNat (zip_filter_ne_length_comm fa.2 fb.2)
        · have ht2 : ¬ fb.1 = fa.1 := fun hc => ht hc.symm
          simp [ht, ht2]

theorem phoneme_distance_self (a : String) : phoneme_distance a a = 0 := by
  unfold phoneme_distance
  simp

/-- C7: phoneme_distance is zero on every identical pair (stress digits are
stripped before comparison), symmetric in its arguments, and takes the value 1
on ("P","B") and the cross-type constant 5 on ("K","AE1"). -/
theorem C7_phoneme_distance_identity_symmetry :
    (∀ a : String, phoneme_distance a a = 0)
    ∧ (∀ a b : String, phoneme_distance a b = phoneme_distance b a)
    ∧ phoneme_distance "P" "B" = 1
    ∧ phoneme_distance "K" "AE1" = 5 :=
  ⟨phoneme_distance_self, phoneme_distance_symm, by decide, by decide⟩

/-! ## types.rs and syllable_bank.rs -/

/-- A single phoneme with timing information (types.rs). -/
structure Phoneme where
  label : String
  start : ℚ
  end_ : ℚ
deriving DecidableEq, Repr, Inhabited

/-- A group of phonemes forming one syllable (types.rs). -/
structure Syllable where
  phonemes : List Phoneme
  start : ℚ
  end_ : ℚ
  word : String
  word_index : ℕ
deriving DecidableEq, Repr, Inhabited

/-- A source syllable with metadata for matching (syllable_bank.rs).
The Rust field `end` is rendered `end_`. -/
structure SyllableEntry where
  phoneme_labels : List String
  start : ℚ
  end_ : ℚ
  word : String
  stress : Option ℕ
  source_path : String
  index : ℕ
deriving DecidableEq, Repr, Inhabited

/-- Extract stress level from ARPABET vowel phonemes: the first label whose
last character is a digit.  (The source looks at the last byte; for UTF-8
strings the last byte is an ASCII digit iff the last character is.) -/
def extract_stress (phoneme_labels : List String) : Option ℕ :=
  phoneme_labels.findSome? (fun label =>
    match label.toList.getLast? with
    | some c => if c.isDigit then some (c.toNat - Char.toNat '0') else none
    | none => none)

/-- True if label is a real phoneme (not punctuation or empty). -/
def is_phoneme (label : String) : Bool :=
  !label.isEmpty && (match label.toList.head? with
    | some c => c.isAlpha
    | none => false)

/-- The filtered, normalized label list build_bank computes for one syllable. -/
def bank_labels (syl : Syllable) : List String :=
  (syl.phonemes.filter (fun p => is_phoneme p.label)).map
    (fun p => normalize_phoneme p.label)

/-- The enumerate loop of build_bank, with the running enumeration index made
explicit: syllables whose filtered label list is empty are skipped without
consuming a bank entry, but the index keeps counting. -/
def build_bank_go (source_path : String) : ℕ → List Syllable → List SyllableEntry
  | _, [] => []
  | i, syl :: rest =>
    let labels := bank_labels syl
    if labels = [] then build_bank_go source_path (i + 1) rest
    else
      { stress := extract_stress labels
        phoneme_labels := labels
        start := syl.start
        end_ := syl.end_
        word := syl.word
        source_path := source_path
        index := i } :: build_bank_go source_path (i + 1) rest

/-- Build a syllable bank from aligned source syllables. -/
def build_bank (syllables : List Syllable) (source_path : String) :
    List SyllableEntry :=
  build_bank_go source_path 0 syllables

/-! ### Helper lemmas for C9 -/

theorem build_bank_go_indices (src : String) (syls : List Syllable) :
    ∀ i0 : ℕ, (build_bank_go src i0 syls).map (fun e => e.index)
      = (List.range' i0 syls.length).filter
          (fun i => !decide (bank_labels (syls.getD (i - i0) default) = [])) := by
  induction syls with
  | nil => intro i0; simp [build_bank_go]
  | cons syl rest ih =>
    intro i0
    have hrest : ∀ i, i ∈ List.range' (i0 + 1) rest.length →
        (decide (bank_labels ((syl :: rest).getD (i - i0) default) = []))
          = (decide (bank_labels (rest.getD (i - (i0 + 1)) default) = [])) := by
      intro i hi
      have hge : i0 + 1 ≤ i := (List.mem_range'_1.mp hi).1
      have hsub : i - i0 = (i - (i0 + 1)) + 1 := by omega
      rw [hsub]
      simp
    by_cases h : bank_labels syl = []
    · rw [show build_bank_go src i0 (syl :: rest)
          = build_bank_go src (i0 + 1) rest by simp [build_bank_go, h]]
      rw [ih (i0 + 1)]
      simp only [List.length_cons]
      rw [List.range'_succ, List.filter_cons]
      have h0 : (!decide (bank_labels ((syl :: rest).getD (i0 - i0) default) = []))
          = false := by simp [h]
      rw [h0]
      simp only [Bool.false_eq_true, if_false]
      exact (List.filter_congr (fun i hi => by rw [Bool.not_inj_iff, hrest i hi])).symm
    · rw [show build_bank_go src i0 (syl :: rest)
          = { stress := extract_stress (bank_labels syl)
              phoneme_labels := bank_labels syl
              start := syl.start
              end_ := syl.end_
              word := syl.word
              source_path := src
              index := i0 } :: build_bank_go src (i0 + 1) rest
          by simp [build_bank_go, h]]
      rw [List.map_cons, ih (i0 + 1)]
      simp only [List.length_cons]
      rw [List.range'_succ, List.filter_cons]
      have h0 : (!decide (bank_labels ((syl :: rest).getD (i0 - i0) default) = []))
          = true := by simp [h]
      rw [h0]
      simp only [if_true]
      exact congrArg (List.cons i0)
        (List.filter_congr (fun i hi => by rw [Bool.not_inj_iff, hrest i hi])).symm

/-- C9: every BankEntry produced by build_bank carries the index of its
syllable in the original, pre-filter list — the produced index list is exactly
the positions of the original list whose filtered label list is non-empty, so
gaps from skipped syllables are preserved.  In particular a 3-syllable input
whose middle syllable is pure punctuation yields entries with indices
[0, 2], not [0, 1]. -/
theorem C9_build_bank_index_stability :
    (∀ (syls : List Syllable) (src : String),
      (build_bank syls src).map (fun e => e.index)
        = (List.range syls.length).filter
            (fun i => !decide (bank_labels (syls.getD i default) = [])))
    ∧ ((build_bank
        [ { phonemes := [{ label := "K", start := 0, end_ := 1 }],
            start := 0, end_ := 1, word := "a", word_index := 0 },
          { phonemes := [{ label := ".", start := 1, end_ := 2 },
                         { label := ",", start := 2, end_ := 3 }],
            start := 1, end_ := 3, word := "punct", word_index := 1 },
          { phonemes := [{ label := "T", start := 3, end_ := 4 }],
            start := 3, end_ := 4, word := "b", word_index := 2 } ]
        "test.wav").map (fun e => e.index) = [0, 2]) := by
  constructor
  · intro syls src
    rw [build_bank, build_bank_go_indices src syls 0, List.range_eq_range']
    exact List.filter_congr (fun i _ => by simp)
  · decide

/-! ## matcher.rs data model (needed by the assembler too) -/

/-- Result of matching a target syllable/phoneme to a source entry. -/
structure MatchResult where
  target_phonemes : List String
  entry : SyllableEntry
  distance : ℤ
  target_index : ℕ
deriving DecidableEq, Repr, Inhabited

/-- True if b immediately follows a in the same source file (matcher.rs). -/
def are_adjacent (a b : SyllableEntry) : Prop :=
  a.source_path = b.source_path ∧ b.index = a.index + 1

instance (a b : SyllableEntry) : Decidable (are_adjacent a b) :=
  inferInstanceAs (Decidable (And _ _))

/-! ## assembler.rs -/

/-- Word-boundary pause in seconds. -/
def WORD_PAUSE_S : ℚ := 12 / 100

/-- Timing for a single output syllable. -/
structure TimingPlan where
  target_start : ℚ
  target_duration : ℚ
  stretch_factor : ℚ
deriving DecidableEq, Repr, Inhabited

/-- One iteration of the plan_timing loop: the timing plan for match m at
target position i given the current output cursor. -/
def plan_step (ws : List ℕ) (avg : ℚ) (ref : Option (List (ℚ × ℚ))) (s : ℚ)
    (m : MatchResult) (i : ℕ) (cursor : ℚ) : TimingPlan :=
  let source_dur := m.entry.end_ - m.entry.start
  let p : ℚ × ℚ :=
    match ref with
    | some ref_timings =>
        if i < ref_timings.length then
          let rt := ref_timings.getD i (0, 0)
          let ref_dur := rt.2 - rt.1
          (cursor + s * (rt.1 - cursor), source_dur + s * (ref_dur - source_dur))
        else (cursor, if 0 < source_dur then source_dur else avg)
    | none => (cursor, if 0 < source_dur then source_dur else avg)
  let target_start := if i ∈ ws ∧ 0 < i then p.1 + WORD_PAUSE_S else p.1
  { target_start := target_start
    target_duration := p.2
    stretch_factor := if 0 < source_dur then p.2 / source_dur else 1 }

/-- The plan_timing loop, threading the target index and output cursor;
the cursor advances to target_start + target_duration after every plan. -/
def plan_go (ws : List ℕ) (avg : ℚ) (ref : Option (List (ℚ × ℚ))) (s : ℚ) :
    List MatchResult → ℕ → ℚ → List TimingPlan
  | [], _, _ => []
  | m :: rest, i, cursor =>
    let p := plan_step ws avg ref s m i cursor
    p :: plan_go ws avg ref s rest (i + 1) (p.target_start + p.target_duration)

/-- Plan output timing for matched syllables (assembler.rs plan_timing).
The word-boundary HashSet is modelled by list membership. -/
def plan_timing (matches_ : List MatchResult) (word_boundaries : List ℕ)
    (avg_syllable_dur : ℚ) (reference_timings : Option (List (ℚ × ℚ)))
    (timing_strictness : ℚ) : List TimingPlan :=
  plan_go word_boundaries avg_syllable_dur reference_timings timing_strictness
    matches_ 0 0

/-! ### Cursor-threading lemmas for plan_go -/

theorem plan_go_length (ws : List ℕ) (avg : ℚ) (ref : Option (List (ℚ × ℚ)))
    (s : ℚ) : ∀ (ms : List MatchResult) (i0 : ℕ) (c0 : ℚ),
    (plan_go ws avg ref s ms i0 c0).length = ms.length := by
  intro ms
  induction ms with
  | nil => intro i0 c0; rfl
  | cons m rest ih => intro i0 c0; simp [plan_go, ih]

theorem plan_go_getD_zero (ws : List ℕ) (avg : ℚ) (ref : Option (List (ℚ × ℚ)))
    (s : ℚ) (m : MatchResult) (rest : List MatchResult) (i0 : ℕ) (c0 : ℚ) :
    (plan_go ws avg ref s (m :: rest) i0 c0).getD 0 default
      = plan_step ws avg ref s m i0 c0 := rfl

theorem plan_go_getD_succ (ws : List ℕ) (avg : ℚ) (ref : Option (List (ℚ × ℚ)))
    (s : ℚ) : ∀ (ms : List MatchResult) (k i0 : ℕ) (c0 : ℚ),
    k + 1 < ms.length →
    (plan_go ws avg ref s ms i0 c0).getD (k + 1) default
      = plan_step ws avg ref s (ms.getD (k + 1) default) (i0 + (k + 1))
          (((plan_go ws avg ref s ms i0 c0).getD k default).target_start
            + ((plan_go ws avg ref s ms i0 c0).getD k default).target_duration) := by
  intro ms
  induction ms with
  | nil => intro k i0 c0 hk; simp at hk
  | cons m rest ih =>
    intro k i0 c0 hk
    match k with
    | 0 =>
      match rest, hk with
      | m2 :: rest2, _ =>
        show (plan_go ws avg ref s (m2 :: rest2) (i0 + 1) _).getD 0 default = _
        rw [plan_go_getD_zero]
        rfl
    | Nat.succ k2 =>
      have hk2 : k2 + 1 < rest.length := by
        simpa [Nat.succ_lt_succ_iff] using hk
      show (plan_go ws avg ref s rest (i0 + 1) _).getD (k2 + 1) default = _
      rw [ih k2 (i0 + 1) _ hk2]
      have harith : i0 + 1 + (k2 + 1) = i0 + (k2 + 1 + 1) := by omega
      rw [harith]
      rfl

/-- C6: for a target position i with a supplied reference timing and
strictness s, plan_timing blends duration as src_dur + s * (ref_dur - src_dur)
and pre-pause start as cursor + s * (ref_start - cursor), where the cursor is 0
for i = 0 and otherwise the previous plan's start plus duration; consequently
strictness 0 reproduces the source duration exactly and strictness 1 the
reference duration exactly. -/
theorem C6_plan_timing_reference_blend (matches_ : List MatchResult)
    (wb : List ℕ) (avg : ℚ) (rt : List (ℚ × ℚ)) (s : ℚ) (i : ℕ)
    (hi : i < matches_.length) (hiref : i < rt.length) :
    ((plan_timing matches_ wb avg (some rt) s).getD i default).target_duration
        = (matches_.getD i default).entry.end_ - (matches_.getD i default).entry.start
          + s * (((rt.getD i (0, 0)).2 - (rt.getD i (0, 0)).1)
                 - ((matches_.getD i default).entry.end_
                    - (matches_.getD i default).entry.start))
    ∧ ((plan_timing matches_ wb avg (some rt) s).getD i default).target_start
        = ((if i = 0 then 0
            else ((plan_timing matches_ wb avg (some rt) s).getD (i - 1) default).target_start
              + ((plan_timing matches_ wb avg (some rt) s).getD (i - 1) default).target_duration)
           + s * ((rt.getD i (0, 0)).1
                  - (if i = 0 then 0
                     else ((plan_timing matches_ wb avg (some rt) s).getD (i - 1) default).target_start
                       + ((plan_timing matches_ wb avg (some rt) s).getD (i - 1) default).target_duration)))
          + (if i ∈ wb ∧ 0 < i then WORD_PAUSE_S else 0)
    ∧ (s = 0 →
        ((plan_timing matches_ wb avg (some rt) s).getD i default).target_duration
          = (matches_.getD i default).entry.end_ - (matches_.getD i default).entry.start)
    ∧ (s = 1 →
        ((plan_timing matches_ wb avg (some rt) s).getD i default).target_duration
          = (rt.getD i (0, 0)).2 - (rt.getD i (0, 0)).1) := by
  have hdur : ∀ (mm : MatchResult) (C : ℚ),
      (plan_step wb avg (some rt) s mm i C).target_duration
        = mm.entry.end_ - mm.entry.start
          + s * (((rt.getD i (0, 0)).2 - (rt.getD i (0, 0)).1)
                 - (mm.entry.end_ - mm.entry.start)) := by
    intro mm C
    simp only [plan_step]
    rw [if_pos hiref]
  have hstart : ∀ (mm : MatchResult) (C : ℚ),
      (plan_step wb avg (some rt) s mm i C).target_start
        = (C + s * ((rt.getD i (0, 0)).1 - C))
          + (if i ∈ wb ∧ 0 < i then WORD_PAUSE_S else 0) := by
    intro mm C
    simp only [plan_step]
    rw [if_pos hiref]
    by_cases hw : i ∈ wb ∧ 0 < i
    · rw [if_pos hw, if_pos hw]
    · rw [if_neg hw, if_neg hw, add_zero]
  have hstep : (plan_timing matches_ wb avg (some rt) s).getD i default
      = plan_step wb avg (some rt) s (matches_.getD i default) i
          (if i = 0 then 0
           else ((plan_timing matches_ wb avg (some rt) s).getD (i - 1) default).target_start
             + ((plan_timing matches_ wb avg (some rt) s).getD (i - 1) default).target_duration) := by
    match i, hi with
    | 0, hi =>
      match matches_, hi with
      | m :: rest, _ => rfl
    | Nat.succ k, hi =>
      show (plan_go wb avg (some rt) s matches_ 0 0).getD (k + 1) default = _
      rw [plan_go_getD_succ wb avg (some rt) s matches_ k 0 0 hi]
      rw [show (0 : ℕ) + (k + 1) = k + 1 from Nat.zero_add _]
      rw [if_neg (Nat.succ_ne_zero k)]
      rfl
  rw [hstep]
  refine ⟨hdur _ _, hstart _ _, fun hs => ?_, fun hs => ?_⟩
  · rw [hdur _ _, hs]; ring
  · rw [hdur _ _, hs]; ring

/-- C10: in text mode (no reference timings), with nonnegative fallback
duration and well-ordered entry times, the plans form an ordered timeline:
the first plan starts at 0 (position 0 is exempt from the word pause) and
every later plan starts no earlier than the previous plan's end. -/
theorem C10_plan_timing_timeline (matches_ : List MatchResult) (wb : List ℕ)
    (avg : ℚ) (s : ℚ) (havg : 0 ≤ avg)
    (hdur : ∀ m ∈ matches_, m.entry.start ≤ m.entry.end_) :
    (0 < matches_.length →
      ((plan_timing matches_ wb avg none s).getD 0 default).target_start = 0)
    ∧ ∀ k, k + 1 < matches_.length →
        ((plan_timing matches_ wb avg none s).getD k default).target_start
          + ((plan_timing matches_ wb avg none s).getD k default).target_duration
        ≤ ((plan_timing matches_ wb avg none s).getD (k + 1) default).target_start := by
  constructor
  · intro hlen
    match matches_, hlen with
    | m :: rest, _ =>
      show ((plan_go wb avg none s (m :: rest) 0 0).getD 0 default).target_start = 0
      rw [plan_go_getD_zero]
      simp [plan_step]
  · intro k hk
    show ((plan_go wb avg none s matches_ 0 0).getD k default).target_start
        + ((plan_go wb avg none s matches_ 0 0).getD k default).target_duration
      ≤ ((plan_go wb avg none s matches_ 0 0).getD (k + 1) default).target_start
    rw [plan_go_getD_succ wb avg none s matches_ k 0 0 hk]
    rw [show (0 : ℕ) + (k + 1) = k + 1 from Nat.zero_add _]
    have hW : (0 : ℚ) ≤ WORD_PAUSE_S := by norm_num [WORD_PAUSE_S]
    simp only [plan_step]
    by_cases hw : k + 1 ∈ wb ∧ 0 < k + 1
    · rw [if_pos hw]; linarith
    · rw [if_neg hw]


/-- Sample bank entry used by concrete witnesses: "K" at index 0 of a.wav. -/
def sampleEntryK : SyllableEntry :=
  { phoneme_labels := ["K"], start := 0, end_ := 3 / 10, word := "k",
    stress := none, source_path := "a.wav", index := 0 }

/-- Sample bank entry used by concrete witnesses: "T" at index 1 of a.wav. -/
def sampleEntryT : SyllableEntry :=
  { phoneme_labels := ["T"], start := 3 / 10, end_ := 1 / 2, word := "t",
    stress := none, source_path := "a.wav", index := 1 }

/-- Sample match of sampleEntryK at target position 0. -/
def sampleMatchK : MatchResult :=
  { target_phonemes := ["K"], entry := sampleEntryK, distance := 0,
    target_index := 0 }

/-- Sample match of sampleEntryT at target position 1. -/
def sampleMatchT : MatchResult :=
  { target_phonemes := ["T"], entry := sampleEntryT, distance := 0,
    target_index := 1 }

/-- Witness for C6 at a concrete input: one match of source span 0.3 s,
reference span 0.5 s, strictness 0.8 gives duration 0.3 + 0.8 * 0.2. -/
theorem C6_plan_timing_reference_blend_witness :
    0 < ([sampleMatchK] : List MatchResult).length
    ∧ 0 < ([((0 : ℚ), (1 : ℚ) / 2)] : List (ℚ × ℚ)).length
    ∧ ((plan_timing [sampleMatchK] [0] (1 / 4) (some [((0 : ℚ), (1 : ℚ) / 2)])
          (8 / 10)).getD 0 default).target_duration
        = sampleMatchK.entry.end_ - sampleMatchK.entry.start
          + 8 / 10 * ((1 / 2 - 0)
            - (sampleMatchK.entry.end_ - sampleMatchK.entry.start)) := by
  refine ⟨by decide, by decide, ?_⟩
  have h := (C6_plan_timing_reference_blend [sampleMatchK] [0] (1 / 4)
    [((0 : ℚ), (1 : ℚ) / 2)] (8 / 10) 0 (by decide) (by decide)).1
  rw [show ([sampleMatchK].getD 0 default) = sampleMatchK from rfl] at h
  rw [h]
  norm_num

/-- Witness for C10 at a concrete input: two matches of well-formed spans give
a timeline that starts at 0 and does not overlap. -/
theorem C10_plan_timing_timeline_witness :
    ((0 : ℚ) ≤ 1 / 4)
    ∧ (∀ m ∈ ([sampleMatchK, sampleMatchT] : List MatchResult),
        m.entry.start ≤ m.entry.end_)
    ∧ ((0 < ([sampleMatchK, sampleMatchT] : List MatchResult).length →
        ((plan_timing [sampleMatchK, sampleMatchT] [0, 1] (1 / 4) none
            (8 / 10)).getD 0 default).target_start = 0)
      ∧ ∀ k, k + 1 < ([sampleMatchK, sampleMatchT] : List MatchResult).length →
          ((plan_timing [sampleMatchK, sampleMatchT] [0, 1] (1 / 4) none
              (8 / 10)).getD k default).target_start
            + ((plan_timing [sampleMatchK, sampleMatchT] [0, 1] (1 / 4) none
              (8 / 10)).getD k default).target_duration
          ≤ ((plan_timing [sampleMatchK, sampleMatchT] [0, 1] (1 / 4) none
              (8 / 10)).getD (k + 1) default).target_start) := by
  have hdur : ∀ m ∈ ([sampleMatchK, sampleMatchT] : List MatchResult),
      m.entry.start ≤ m.entry.end_ := by
    intro m hm
    simp only [List.mem_cons, List.mem_singleton, List.not_mem_nil, or_false] at hm
    rcases hm with h | h
    · rw [h]; norm_num [sampleMatchK, sampleEntryK]
    · rw [h]; norm_num [sampleMatchT, sampleEntryT]
  exact ⟨by norm_num,
    hdur,
    C10_plan_timing_timeline [sampleMatchK, sampleMatchT] [0, 1] (1 / 4)
      (8 / 10) (by norm_num) hdur⟩

/-! ### group_contiguous_runs (assembler.rs) -/

/-- The scan loop of group_contiguous_runs, carrying the index of the first
element still to be placed.  A new run is opened exactly when the next match's
entry is not adjacent (same source, index + 1) to the previous match's. -/
def group_go : ℕ → List MatchResult → List (List ℕ)
  | _, [] => []
  | i, [_] => [[i]]
  | i, m :: m2 :: rest =>
    match group_go (i + 1) (m2 :: rest) with
    | [] => [[i]]
    | r :: rs =>
        if are_adjacent m.entry m2.entry then (i :: r) :: rs
        else [i] :: r :: rs

/-- Group consecutive matches from adjacent source syllables; runs hold
indices into the match list. -/
def group_contiguous_runs (matches_ : List MatchResult) : List (List ℕ) :=
  group_go 0 matches_

/-- The heads (first target indices) of a list of runs. -/
def run_heads (runs : List (List ℕ)) : List ℕ :=
  runs.filterMap (fun r => r.head?)

theorem group_go_head : ∀ (ms : List MatchResult) (i : ℕ), ms ≠ [] →
    ∃ r rs, group_go i ms = r :: rs ∧ r.head? = some i := by
  intro ms
  induction ms with
  | nil => intro i h; cases h rfl
  | cons m rest ih =>
    intro i _
    cases rest with
    | nil => exact ⟨[i], [], rfl, rfl⟩
    | cons m2 rest2 =>
      obtain ⟨r, rs, hr, hh⟩ := ih (i + 1) (by simp)
      by_cases hadj : are_adjacent m.entry m2.entry
      · refine ⟨i :: r, rs, ?_, rfl⟩
        show (match group_go (i + 1) (m2 :: rest2) with
          | [] => [[i]]
          | r :: rs =>
              if are_adjacent m.entry m2.entry then (i :: r) :: rs
              else [i] :: r :: rs) = (i :: r) :: rs
        rw [hr]
        simp [hadj]
      · refine ⟨[i], r :: rs, ?_, rfl⟩
        show (match group_go (i + 1) (m2 :: rest2) with
          | [] => [[i]]
          | r :: rs =>
              if are_adjacent m.entry m2.entry then (i :: r) :: rs
              else [i] :: r :: rs) = [i] :: r :: rs
        rw [hr]
        simp [hadj]

theorem group_go_flatten : ∀ (ms : List MatchResult) (i : ℕ),
    (group_go i ms).flatten = List.range' i ms.length := by
  intro ms
  induction ms with
  | nil => intro i; rfl
  | cons m rest ih =>
    intro i
    cases rest with
    | nil => simp [group_go]
    | cons m2 rest2 =>
      obtain ⟨r, rs, hr, _⟩ := group_go_head (m2 :: rest2) (i + 1) (by simp)
      have hjoin : (r :: rs).flatten = List.range' (i + 1) (m2 :: rest2).length := by
        rw [← hr]; exact ih (i + 1)
      show (match group_go (i + 1) (m2 :: rest2) with
        | [] => [[i]]
        | r :: rs =>
            if are_adjacent m.entry m2.entry then (i :: r) :: rs
            else [i] :: r :: rs).flatten = _
      rw [hr]
      rw [show (match r :: rs with
        | [] => [[i]]
        | r :: rs =>
            if are_adjacent m.entry m2.entry then (i :: r) :: rs
            else [i] :: r :: rs)
        = (if are_adjacent m.entry m2.entry then (i :: r) :: rs
            else [i] :: r :: rs) from rfl]
      by_cases hadj : are_adjacent m.entry m2.entry
      · rw [if_pos hadj]
        have hstep : ((i :: r) :: rs).flatten = i :: (r :: rs).flatten := by simp
        rw [hstep, hjoin]
        simp [List.range'_succ]
      · rw [if_neg hadj]
        have hstep : ([i] :: r :: rs).flatten = i :: (r :: rs).flatten := by simp
        rw [hstep, hjoin]
        simp [List.range'_succ]

/-- Positions at which a new run must start according to the specification:
position k+1 is a break exactly when the entry matched at k+1 is not the
contiguous successor of the entry matched at k.  The parameter i offsets all
positions (the scan may start anywhere). -/
def break_heads (ms : List MatchResult) (i : ℕ) : List ℕ :=
  (List.range (ms.length - 1)).filterMap (fun k =>
    if are_adjacent ((ms.getD k default).entry) ((ms.getD (k + 1) default).entry)
    then none else some (i + (k + 1)))

theorem break_heads_cons (m m2 : MatchResult) (rest : List MatchResult) (i : ℕ) :
    break_heads (m :: m2 :: rest) i
      = (if are_adjacent m.entry m2.entry then [] else [i + 1])
        ++ break_heads (m2 :: rest) (i + 1) := by
  unfold break_heads
  have hlen : (m :: m2 :: rest).length - 1 = rest.length + 1 := by simp
  have hlen2 : (m2 :: rest).length - 1 = rest.length := by simp
  rw [hlen, hlen2, List.range_succ_eq_map, List.filterMap_cons]
  have hfun : (fun k => if are_adjacent (((m :: m2 :: rest).getD (Nat.succ k) default).entry)
        (((m :: m2 :: rest).getD (Nat.succ k + 1) default).entry)
      then none else some (i + (Nat.succ k + 1)))
      = (fun k => if are_adjacent (((m2 :: rest).getD k default).entry)
        (((m2 :: rest).getD (k + 1) default).entry)
      then none else some (i + 1 + (k + 1))) := by
    funext k
    simp only [List.getD_cons_succ]
    rw [show i + (Nat.succ k + 1) = i + 1 + (k + 1) from by omega]
  rw [List.filterMap_map]
  by_cases hadj : are_adjacent m.entry m2.entry
  · rw [if_pos hadj, if_pos (by simpa using hadj)]
    rw [show ((fun k => if are_adjacent (((m :: m2 :: rest).getD k default).entry)
          (((m :: m2 :: rest).getD (k + 1) default).entry)
        then none else some (i + (k + 1))) ∘ Nat.succ)
      = (fun k => if are_adjacent (((m :: m2 :: rest).getD (Nat.succ k) default).entry)
          (((m :: m2 :: rest).getD (Nat.succ k + 1) default).entry)
        then none else some (i + (Nat.succ k + 1))) from rfl]
    rw [hfun]
    simp
  · rw [if_neg hadj, if_neg (by simpa using hadj)]
    rw [show ((fun k => if are_adjacent (((m :: m2 :: rest).getD k default).entry)
          (((m :: m2 :: rest).getD (k + 1) default).entry)
        then none else some (i + (k + 1))) ∘ Nat.succ)
      = (fun k => if are_adjacent (((m :: m2 :: rest).getD (Nat.succ k) default).entry)
          (((m :: m2 :: rest).getD (Nat.succ k + 1) default).entry)
        then none else some (i + (Nat.succ k + 1))) from rfl]
    rw [hfun]
    simp

theorem group_go_heads : ∀ (ms : List MatchResult) (i : ℕ), ms ≠ [] →
    run_heads (group_go i ms) = i :: break_heads ms i := by
  intro ms
  induction ms with
  | nil => intro i h; cases h rfl
  | cons m rest ih =>
    intro i _
    cases rest with
    | nil =>
      show run_heads [[i]] = i :: break_heads [m] i
      simp [run_heads, break_heads]
    | cons m2 rest2 =>
      obtain ⟨r, rs, hr, hh⟩ := group_go_head (m2 :: rest2) (i + 1) (by simp)
      have hih := ih (i + 1) (by simp)
      rw [hr] at hih
      have htail : run_heads rs = break_heads (m2 :: rest2) (i + 1) := by
        have : run_heads (r :: rs) = (i + 1) :: run_heads rs := by
          simp [run_heads, List.filterMap_cons, hh]
        rw [this] at hih
        exact (List.cons.injEq _ _ _ _).mp hih |>.2
      show run_heads (match group_go (i + 1) (m2 :: rest2) with
        | [] => [[i]]
        | r :: rs =>
            if are_adjacent m.entry m2.entry then (i :: r) :: rs
            else [i] :: r :: rs) = _
      rw [hr]
      rw [show (match r :: rs with
        | [] => [[i]]
        | r :: rs =>
            if are_adjacent m.entry m2.entry then (i :: r) :: rs
            else [i] :: r :: rs)
        = (if are_adjacent m.entry m2.entry then (i :: r) :: rs
            else [i] :: r :: rs) from rfl]
      rw [break_heads_cons]
      by_cases hadj : are_adjacent m.entry m2.entry
      · rw [if_pos hadj, if_pos hadj]
        show run_heads ((i :: r) :: rs) = i :: ([] ++ break_heads (m2 :: rest2) (i + 1))
        rw [show run_heads ((i :: r) :: rs) = i :: run_heads rs from by
          simp [run_heads, List.filterMap_cons]]
        rw [htail]
        simp
      · rw [if_neg hadj, if_neg hadj]
        show run_heads ([i] :: r :: rs) = i :: ([i + 1] ++ break_heads (m2 :: rest2) (i + 1))
        rw [show run_heads ([i] :: r :: rs) = i :: run_heads (r :: rs) from by
          simp [run_heads, List.filterMap_cons]]
        rw [show run_heads (r :: rs) = (i + 1) :: run_heads rs from by
          simp [run_heads, List.filterMap_cons, hh]]
        rw [htail]
        simp

/-- Sample match in a different source file, used by the C8 example. -/
def sampleMatchB : MatchResult :=
  { target_phonemes := ["D"], entry :=
      { phoneme_labels := ["D"], start := 0, end_ := 1 / 5, word := "d",
        stress := none, source_path := "b.wav", index := 0 },
    distance := 0, target_index := 2 }

/-- C8: group_contiguous_runs partitions the target positions in order (its
runs flatten back to 0, 1, ..., N-1), and a new run starts exactly at the
positions whose entry is not the contiguous successor (same source,
index + 1) of the previous result's entry; in particular the matches
[(src a, idx 0), (src a, idx 1), (src b, idx 0)] group into [[0, 1], [2]]. -/
theorem C8_group_contiguous_runs_correct :
    (∀ ms : List MatchResult,
      (group_contiguous_runs ms).flatten = List.range ms.length)
    ∧ (∀ ms : List MatchResult, ms ≠ [] →
      run_heads (group_contiguous_runs ms) = 0 :: break_heads ms 0)
    ∧ group_contiguous_runs [sampleMatchK, sampleMatchT, sampleMatchB]
        = [[0, 1], [2]] := by
  refine ⟨?_, ?_, ?_⟩
  · intro ms
    rw [group_contiguous_runs, group_go_flatten ms 0, List.range_eq_range']
  · intro ms hms
    rw [group_contiguous_runs, group_go_heads ms 0 hms]
  · decide

/-- Witness for C8 at a concrete input: the non-empty match list of the
example has run heads 0 and 2 (a break exactly before position 2). -/
theorem C8_group_contiguous_runs_witness :
    (([sampleMatchK, sampleMatchT, sampleMatchB] : List MatchResult) ≠ [])
    ∧ run_heads (group_contiguous_runs [sampleMatchK, sampleMatchT, sampleMatchB])
        = 0 :: break_heads [sampleMatchK, sampleMatchT, sampleMatchB] 0 := by
  exact ⟨by decide, C8_group_contiguous_runs_correct.2.1
    [sampleMatchK, sampleMatchT, sampleMatchB] (by decide)⟩

/-! ## matcher.rs: Viterbi matcher -/

/-- Default bonus applied when consecutive target syllables match to adjacent
source syllables. -/
def CONTINUITY_BONUS : ℤ := 7

/-- The running fold of Rust Iterator min_by over (index, value) pairs:
a later element replaces the current best only when strictly smaller, so on
ties the first minimum is kept. -/
def argmin_go : List ℚ → ℕ → (ℕ × ℚ) → (ℕ × ℚ)
  | [], _, best => best
  | x :: xs, i, best =>
      if x < best.2 then argmin_go xs (i + 1) (i, x)
      else argmin_go xs (i + 1) best

/-- Index and value of the first minimum of a list (min_by of the source);
the source unwraps and so never calls this on an empty list, where we return
a junk value. -/
def argminFirst : List ℚ → ℕ × ℚ
  | [] => (0, 0)
  | x :: xs => argmin_go xs 1 (0, x)

/-- Distance row for one target syllable against the whole bank: the syllable
distance plus a 0.1 stress-mismatch penalty when a stress hint is present. -/
def distRow (target : List String) (stress : Option ℕ)
    (bank : List SyllableEntry) : List ℚ :=
  bank.map (fun e =>
    ((syllable_distance target e.phoneme_labels : ℤ) : ℚ)
      + (if stress.isSome ∧ e.stress ≠ stress then 1 / 10 else 0))

/-- The full N x B distance matrix of match_syllables. -/
def distsOf (targets : List (List String)) (bank : List SyllableEntry)
    (stresses : Option (List (Option ℕ))) : List (List ℚ) :=
  targets.enum.map (fun p =>
    distRow p.2 ((stresses.bind (fun ts => ts.get? p.1)).join) bank)

/-- Predecessor map: pred[j] is the first bank position k (source iteration
order, break on first hit) with bank[k] adjacent-before bank[j]. -/
def predOf (bank : List SyllableEntry) : List (Option ℕ) :=
  (List.range bank.length).map (fun j =>
    (List.range bank.length).find? (fun k =>
      decide (are_adjacent (bank.getD k default) (bank.getD j default))))

/-- One forward step of the Viterbi DP: for every bank index j the pair
(new_dp[j], new_parent[j]).  The non-contiguous option pays the best previous
cost; the contiguous option pays dp[pred[j]] minus the bonus and wins only
when strictly smaller. -/
def viterbiStep (bonus : ℚ) (pred : List (Option ℕ)) (dp : List ℚ)
    (row : List ℚ) : List (ℚ × ℕ) :=
  (List.range dp.length).map (fun j =>
    let cost := row.getD j 0
    let best := (argminFirst dp).2 + cost
    match pred.getD j none with
    | some k =>
        let contiguous := dp.getD k 0 + cost - bonus
        if contiguous < best then (contiguous, k)
        else (best, (argminFirst dp).1)
    | none => (best, (argminFirst dp).1))

/-- dp row after processing target positions 0..i. -/
def dpRows (bonus : ℚ) (pred : List (Option ℕ)) (dists : List (List ℚ)) :
    ℕ → List ℚ
  | 0 => dists.getD 0 []
  | i + 1 =>
      (viterbiStep bonus pred (dpRows bonus pred dists i)
        (dists.getD (i + 1) [])).map Prod.fst

/-- Parent pointers recorded at step i (the source keeps an unused placeholder
row for i = 0; it is never read, modelled as the empty row). -/
def parentRows (bonus : ℚ) (pred : List (Option ℕ)) (dists : List (List ℚ)) :
    ℕ → List ℕ
  | 0 => []
  | i + 1 =>
      (viterbiStep bonus pred (dpRows bonus pred dists i)
        (dists.getD (i + 1) [])).map Prod.snd

/-- Backtrace: the path for target positions 0..i that ends at bank index j,
read off the recorded parent pointers. -/
def backtracePath (bonus : ℚ) (pred : List (Option ℕ))
    (dists : List (List ℚ)) : ℕ → ℕ → List ℕ
  | 0, j => [j]
  | i + 1, j =>
      backtracePath bonus pred dists i
        ((parentRows bonus pred dists (i + 1)).getD j 0) ++ [j]

/-- The bank-index path chosen by match_syllables: backtrace from the argmin
of the final dp row. -/
def matchPath (targets : List (List String)) (bank : List SyllableEntry)
    (stresses : Option (List (Option ℕ))) (continuity_bonus : Option ℤ) :
    List ℕ :=
  if targets.length = 0 ∨ bank.length = 0 then []
  else
    let bonus : ℚ := ((continuity_bonus.getD CONTINUITY_BONUS : ℤ) : ℚ)
    let dists := distsOf targets bank stresses
    let pred := predOf bank
    backtracePath bonus pred dists (targets.length - 1)
      (argminFirst (dpRows bonus pred dists (targets.length - 1))).1

/-- Match target syllables to a source bank using Viterbi DP
(matcher.rs match_syllables).  The f64 "as i32" of the reported distance is
floor, which agrees with Rust truncation on these nonnegative values. -/
def match_syllables (targets : List (List String)) (bank : List SyllableEntry)
    (stresses : Option (List (Option ℕ))) (continuity_bonus : Option ℤ) :
    List MatchResult :=
  if targets.length = 0 ∨ bank.length = 0 then []
  else
    let path := matchPath targets bank stresses continuity_bonus
    let dists := distsOf targets bank stresses
    (List.range targets.length).map (fun i =>
      { target_phonemes := targets.getD i []
        entry := bank.getD (path.getD i 0) default
        distance := ((dists.getD i []).getD (path.getD i 0) 0).floor
        target_index := i })

/-- The scan of match_phonemes over the flattened bank for one target
phoneme, with the early break on an exact hit. -/
def find_best_phoneme (target : String) :
    List (String × SyllableEntry) → ℤ → Option SyllableEntry →
    ℤ × Option SyllableEntry
  | [], best_dist, best_entry => (best_dist, best_entry)
  | (label, entry) :: rest, best_dist, best_entry =>
      let d := phoneme_distance target label
      if d < best_dist then
        if d = 0 then (d, some entry)
        else find_best_phoneme target rest d (some entry)
      else find_best_phoneme target rest best_dist best_entry

/-- Match each target phoneme to the best source phoneme
(matcher.rs match_phonemes).  The source unwraps the best entry, which
panics when the bank holds no phonemes at all; the panic is modelled by
none. -/
def match_phonemes (target_phonemes : List String)
    (bank : List SyllableEntry) : Option (List MatchResult) :=
  let flat : List (String × SyllableEntry) :=
    (bank.map (fun e => e.phoneme_labels.map (fun l => (l, e)))).flatten
  target_phonemes.enum.mapM (fun p =>
    match find_best_phoneme p.2 flat 2147483647 none with
    | (bd, some entry) =>
        some { target_phonemes := [p.2], entry := entry, distance := bd,
               target_index := p.1 }
    | (_, none) => none)

/-- Total cost of an assignment of bank indices to target positions starting
at position i: the sum of the matrix distances minus the bonus for every step
whose bank entry is the contiguous successor of the previous one.  This is
the objective the specification says match_syllables minimises. -/
def costFrom (dists : List (List ℚ)) (bank : List SyllableEntry) (bonus : ℚ) :
    ℕ → List ℕ → ℚ
  | _, [] => 0
  | i, [j] => (dists.getD i []).getD j 0
  | i, j :: j2 :: rest =>
      (dists.getD i []).getD j 0
        - (if are_adjacent (bank.getD j default) (bank.getD j2 default)
           then bonus else 0)
        + costFrom dists bank bonus (i + 1) (j2 :: rest)

/-- Total cost of a full assignment (positions numbered from 0). -/
def assignmentCost (dists : List (List ℚ)) (bank : List SyllableEntry)
    (bonus : ℚ) (path : List ℕ) : ℚ :=
  costFrom dists bank bonus 0 path

/-- The minimum value of a rational list (0 on the empty list). -/
def rowMinQ : List ℚ → ℚ
  | [] => 0
  | x :: xs => xs.foldl min x

/-! ### argmin lemmas -/

theorem argmin_go_le : ∀ (xs : List ℚ) (i : ℕ) (best : ℕ × ℚ),
    (argmin_go xs i best).2 ≤ best.2 ∧ ∀ x ∈ xs, (argmin_go xs i best).2 ≤ x := by
  intro xs
  induction xs with
  | nil =>
    intro i best
    exact ⟨le_refl _, by intro x hx; cases hx⟩
  | cons x xs ih =>
    intro i best
    by_cases h : x < best.2
    · rw [show argmin_go (x :: xs) i best = argmin_go xs (i + 1) (i, x) from by
        simp [argmin_go, h]]
      obtain ⟨h1, h2⟩ := ih (i + 1) (i, x)
      refine ⟨le_trans h1 (le_of_lt h), ?_⟩
      intro y hy
      rcases List.mem_cons.mp hy with hy | hy
      · rw [hy]; exact h1
      · exact h2 y hy
    · rw [show argmin_go (x :: xs) i best = argmin_go xs (i + 1) best from by
        simp [argmin_go, h]]
      obtain ⟨h1, h2⟩ := ih (i + 1) best
      refine ⟨h1, ?_⟩
      intro y hy
      rcases List.mem_cons.mp hy with hy | hy
      · rw [hy]; exact le_trans h1 (not_lt.mp h)
      · exact h2 y hy

theorem argmin_go_attained : ∀ (xs : List ℚ) (i : ℕ) (best : ℕ × ℚ),
    argmin_go xs i best = best
    ∨ ∃ j, j < xs.length ∧ argmin_go xs i best = (i + j, xs.getD j 0) := by
  intro xs
  induction xs with
  | nil => intro i best; exact Or.inl rfl
  | cons x xs ih =>
    intro i best
    by_cases h : x < best.2
    · rw [show argmin_go (x :: xs) i best = argmin_go xs (i + 1) (i, x) from by
        simp [argmin_go, h]]
      rcases ih (i + 1) (i, x) with heq | ⟨j, hj, heq⟩
      · exact Or.inr ⟨0, by simp, by rw [heq]; simp⟩
      · refine Or.inr ⟨j + 1, by simpa using hj, ?_⟩
        rw [heq, show i + 1 + j = i + (j + 1) from by omega]
        simp [List.getD_cons_succ]
    · rw [show argmin_go (x :: xs) i best = argmin_go xs (i + 1) best from by
        simp [argmin_go, h]]
      rcases ih (i + 1) best with heq | ⟨j, hj, heq⟩
      · exact Or.inl heq
      · refine Or.inr ⟨j + 1, by simpa using hj, ?_⟩
        rw [heq, show i + 1 + j = i + (j + 1) from by omega]
        simp [List.getD_cons_succ]

theorem argminFirst_le (l : List ℚ) : ∀ x ∈ l, (argminFirst l).2 ≤ x := by
  cases l with
  | nil => intro x hx; cases hx
  | cons y ys =>
    intro x hx
    rcases List.mem_cons.mp hx with hx | hx
    · rw [hx]; exact (argmin_go_le ys 1 (0, y)).1
    · exact (argmin_go_le ys 1 (0, y)).2 x hx

theorem argminFirst_spec (l : List ℚ) (h : l ≠ []) :
    (argminFirst l).1 < l.length
    ∧ l.getD (argminFirst l).1 0 = (argminFirst l).2 := by
  cases l with
  | nil => cases h rfl
  | cons y ys =>
    rcases argmin_go_attained ys 1 (0, y) with heq | ⟨j, hj, heq⟩
    · rw [show argminFirst (y :: ys) = argmin_go ys 1 (0, y) from rfl, heq]
      exact ⟨by simp, rfl⟩
    · rw [show argminFirst (y :: ys) = argmin_go ys 1 (0, y) from rfl, heq]
      refine ⟨by simp; omega, ?_⟩
      show (y :: ys).getD (1 + j) 0 = ys.getD j 0
      rw [show 1 + j = j + 1 from by omega]
      simp [List.getD_cons_succ]

theorem argmin_go_val : ∀ (xs : List ℚ) (i : ℕ) (best : ℕ × ℚ),
    (argmin_go xs i best).2 = xs.foldl min best.2 := by
  intro xs
  induction xs with
  | nil => intro i best; rfl
  | cons x xs ih =>
    intro i best
    by_cases h : x < best.2
    · rw [show argmin_go (x :: xs) i best = argmin_go xs (i + 1) (i, x) from by
        simp [argmin_go, h]]
      rw [ih (i + 1) (i, x), List.foldl_cons,
        show min best.2 x = x from min_eq_right (le_of_lt h)]
    · rw [show argmin_go (x :: xs) i best = argmin_go xs (i + 1) best from by
        simp [argmin_go, h]]
      rw [ih (i + 1) best, List.foldl_cons,
        show min best.2 x = best.2 from min_eq_left (not_lt.mp h)]

theorem argminFirst_val (l : List ℚ) : (argminFirst l).2 = rowMinQ l := by
  cases l with
  | nil => rfl
  | cons y ys => exact argmin_go_val ys 1 (0, y)

/-! ### list access helpers -/

theorem getD_map_range {α : Type} (d : α) (f : ℕ → α) (b j : ℕ) (h : j < b) :
    ((List.range b).map f).getD j d = f j := by
  rw [List.getD_eq_getElem?_getD, List.getElem?_map, List.getElem?_range h]
  rfl

theorem getD_map_fst (l : List (ℚ × ℕ)) (j : ℕ) (h : j < l.length) :
    (l.map Prod.fst).getD j 0 = (l.getD j (0, 0)).1 := by
  rw [List.getD_eq_getElem?_getD, List.getD_eq_getElem?_getD, List.getElem?_map,
    List.getElem?_eq_getElem h]
  rfl

theorem getD_map_snd (l : List (ℚ × ℕ)) (j : ℕ) (h : j < l.length) :
    (l.map Prod.snd).getD j 0 = (l.getD j (0, 0)).2 := by
  rw [List.getD_eq_getElem?_getD, List.getD_eq_getElem?_getD, List.getElem?_map,
    List.getElem?_eq_getElem h]
  rfl

/-! ### Viterbi step and dp-row lemmas -/

theorem viterbiStep_getD_spec (bonus : ℚ) (pred : List (Option ℕ))
    (dp row : List ℚ) (j : ℕ) (hj : j < dp.length) :
    ((viterbiStep bonus pred dp row).getD j (0, 0)
        = ((argminFirst dp).2 + row.getD j 0, (argminFirst dp).1)
      ∧ (∀ k, pred.getD j none = some k →
          ¬ (dp.getD k 0 + row.getD j 0 - bonus
              < (argminFirst dp).2 + row.getD j 0)))
    ∨ ∃ k, pred.getD j none = some k
        ∧ (viterbiStep bonus pred dp row).getD j (0, 0)
          = (dp.getD k 0 + row.getD j 0 - bonus, k)
        ∧ dp.getD k 0 + row.getD j 0 - bonus
            < (argminFirst dp).2 + row.getD j 0 := by
  rw [viterbiStep, getD_map_range _ _ _ _ hj]
  cases hp : pred.getD j none with
  | none =>
    refine Or.inl ⟨?_, ?_⟩
    · simp only [hp]
    · intro k hk
      cases hk
  | some k =>
    simp only [hp]
    by_cases hlt : dp.getD k 0 + row.getD j 0 - bonus
        < (argminFirst dp).2 + row.getD j 0
    · refine Or.inr ⟨k, rfl, ?_, hlt⟩
      simp only [if_pos hlt]
    · refine Or.inl ⟨?_, ?_⟩
      · simp only [if_neg hlt]
      · intro k2 hk2
        injection hk2 with hk2
        subst hk2
        exact hlt

theorem dpRows_length (bonus : ℚ) (pred : List (Option ℕ))
    (dists : List (List ℚ)) :
    ∀ i, (dpRows bonus pred dists i).length = (dists.getD 0 []).length := by
  intro i
  induction i with
  | zero => rfl
  | succ i ih =>
    show ((viterbiStep bonus pred (dpRows bonus pred dists i)
      (dists.getD (i + 1) [])).map Prod.fst).length = _
    rw [List.length_map, viterbiStep, List.length_map, List.length_range, ih]

theorem costFrom_snoc (dists : List (List ℚ)) (bank : List SyllableEntry)
    (bonus : ℚ) : ∀ (q : List ℕ) (i j l : ℕ), q.getLast? = some l →
    costFrom dists bank bonus i (q ++ [j])
      = costFrom dists bank bonus i q
        + (dists.getD (i + q.length) []).getD j 0
        - (if are_adjacent (bank.getD l default) (bank.getD j default)
           then bonus else 0) := by
  intro q
  induction q with
  | nil => intro i j l hl; cases hl
  | cons x q ih =>
    intro i j l hl
    cases q with
    | nil =>
      rw [show ([x] : List ℕ).getLast? = some x from rfl] at hl
      injection hl with hl
      subst hl
      show costFrom dists bank bonus i [x, j] = _
      rw [show costFrom dists bank bonus i [x, j]
        = (dists.getD i []).getD x 0
          - (if are_adjacent (bank.getD x default) (bank.getD j default)
             then bonus else 0)
          + costFrom dists bank bonus (i + 1) [j] from rfl]
      rw [show costFrom dists bank bonus (i + 1) [j]
        = (dists.getD (i + 1) []).getD j 0 from rfl]
      rw [show costFrom dists bank bonus i [x]
        = (dists.getD i []).getD x 0 from rfl]
      rw [show i + ([x] : List ℕ).length = i + 1 from rfl]
      ring
    | cons y q2 =>
      have hl2 : (y :: q2).getLast? = some l :=
        List.getLast?_cons_cons.symm.trans hl
      show costFrom dists bank bonus i (x :: (y :: q2 ++ [j])) = _
      rw [show costFrom dists bank bonus i (x :: (y :: q2 ++ [j]))
        = (dists.getD i []).getD x 0
          - (if are_adjacent (bank.getD x default) (bank.getD y default)
             then bonus else 0)
          + costFrom dists bank bonus (i + 1) (y :: q2 ++ [j]) from rfl]
      rw [show (y :: q2 ++ [j]) = ((y :: q2) ++ [j]) from rfl]
      rw [ih (i + 1) j l hl2]
      rw [show costFrom dists bank bonus i (x :: y :: q2)
        = (dists.getD i []).getD x 0
          - (if are_adjacent (bank.getD x default) (bank.getD y default)
             then bonus else 0)
          + costFrom dists bank bonus (i + 1) (y :: q2) from rfl]
      rw [show i + 1 + (y :: q2).length = i + (x :: y :: q2).length from by
        simp; omega]
      ring

theorem getD_mem_of_lt {α : Type} (l : List α) (n : ℕ) (d : α)
    (h : n < l.length) : l.getD n d ∈ l := by
  rw [List.getD_eq_getElem?_getD, List.getElem?_eq_getElem h]
  exact List.getElem_mem h

/-- Lower bound: the dp value at row i, column j is at most the cost of any
assignment of targets 0..i whose last bank index is j. -/
theorem dpRows_le_cost (bonus : ℚ) (dists : List (List ℚ))
    (bank : List SyllableEntry)
    (hrow0 : (dists.getD 0 []).length = bank.length)
    (hpred_adj : ∀ j k, j < bank.length → k < bank.length →
      are_adjacent (bank.getD k default) (bank.getD j default) →
      (predOf bank).getD j none = some k) :
    ∀ (i : ℕ) (p : List ℕ) (j : ℕ), p.length = i + 1 →
      (∀ x ∈ p, x < bank.length) → p.getLast? = some j →
      (dpRows bonus (predOf bank) dists i).getD j 0
        ≤ costFrom dists bank bonus 0 p := by
  intro i
  induction i with
  | zero =>
    intro p j hlen hmem hlast
    match p, hlen with
    | [j0], _ =>
      rw [show ([j0] : List ℕ).getLast? = some j0 from rfl] at hlast
      injection hlast with hlast
      subst hlast
      exact le_refl _
  | succ i ih =>
    intro p j hlen hmem hlast
    rcases List.eq_nil_or_concat p with hnil | ⟨q, x, hqx⟩
    · rw [hnil] at hlen; cases hlen
    · rw [List.concat_eq_append] at hqx
      subst hqx
      have hx : j = x := by
        rw [List.getLast?_concat] at hlast
        injection hlast with hlast
        exact hlast.symm
      subst hx
      have hqlen : q.length = i + 1 := by
        rw [List.length_append] at hlen
        simpa using hlen
      have hqnil : q ≠ [] := by
        intro hq
        rw [hq] at hqlen
        cases hqlen
      obtain ⟨l, hl⟩ : ∃ l, q.getLast? = some l := by
        cases hql : q.getLast? with
        | none => cases hqnil (List.getLast?_eq_none_iff.mp hql)
        | some l => exact ⟨l, rfl⟩
      have hjb : j < bank.length := hmem j (by simp)
      have hlb : l < bank.length :=
        hmem l (List.mem_append_left _ (List.mem_of_mem_getLast? hl))
      have hqmem : ∀ y ∈ q, y < bank.length := fun y hy =>
        hmem y (List.mem_append_left _ hy)
      have hIH : (dpRows bonus (predOf bank) dists i).getD l 0
          ≤ costFrom dists bank bonus 0 q := ih q l hqlen hqmem hl
      have hcost : costFrom dists bank bonus 0 (q ++ [j])
          = costFrom dists bank bonus 0 q
            + (dists.getD (i + 1) []).getD j 0
            - (if are_adjacent (bank.getD l default) (bank.getD j default)
               then bonus else 0) := by
        rw [costFrom_snoc dists bank bonus q 0 j l hl, Nat.zero_add, hqlen]
      have hdplen : (dpRows bonus (predOf bank) dists i).length = bank.length :=
        (dpRows_length bonus (predOf bank) dists i).trans hrow0
      have hsteplen : (viterbiStep bonus (predOf bank)
          (dpRows bonus (predOf bank) dists i) (dists.getD (i + 1) [])).length
          = bank.length := by
        rw [viterbiStep, List.length_map, List.length_range, hdplen]
      have hval : (dpRows bonus (predOf bank) dists (i + 1)).getD j 0
          = ((viterbiStep bonus (predOf bank)
              (dpRows bonus (predOf bank) dists i)
              (dists.getD (i + 1) [])).getD j (0, 0)).1 := by
        show ((viterbiStep bonus (predOf bank)
            (dpRows bonus (predOf bank) dists i)
            (dists.getD (i + 1) [])).map Prod.fst).getD j 0 = _
        exact getD_map_fst _ j (by rw [hsteplen]; exact hjb)
      have hargmin : (argminFirst (dpRows bonus (predOf bank) dists i)).2
          ≤ (dpRows bonus (predOf bank) dists i).getD l 0 :=
        argminFirst_le _ _ (getD_mem_of_lt _ l 0 (by rw [hdplen]; exact hlb))
      have hspec := viterbiStep_getD_spec bonus (predOf bank)
        (dpRows bonus (predOf bank) dists i) (dists.getD (i + 1) []) j
        (by rw [hdplen]; exact hjb)
      rw [hcost, hval]
      by_cases hadj : are_adjacent (bank.getD l default) (bank.getD j default)
      · rw [if_pos hadj]
        have hpk : (predOf bank).getD j none = some l :=
          hpred_adj j l hjb hlb hadj
        rcases hspec with ⟨heq, hno⟩ | ⟨k, hpk2, heq, _⟩
        · rw [heq]
          dsimp only
          have := hno l hpk
          push_neg at this
          linarith
        · have hkl : k = l := by
            rw [hpk] at hpk2
            injection hpk2 with h2
            exact h2.symm
          subst hkl
          rw [heq]
          dsimp only
          linarith
      · rw [if_neg hadj]
        rcases hspec with ⟨heq, _⟩ | ⟨k, hpk2, heq, hlt⟩
        · rw [heq]
          dsimp only
          linarith
        · rw [heq]
          dsimp only
          linarith


/-- Upper bound: the backtraced path ending at column j is a well-formed
assignment whose cost is at most the dp value at (i, j); needs a nonnegative
bonus. -/
theorem backtrace_le_dpRows (bonus : ℚ) (dists : List (List ℚ))
    (bank : List SyllableEntry)
    (hbonus : 0 ≤ bonus)
    (hrow0 : (dists.getD 0 []).length = bank.length)
    (hpred_some : ∀ j k, (predOf bank).getD j none = some k →
      k < bank.length
        ∧ are_adjacent (bank.getD k default) (bank.getD j default)) :
    ∀ (i j : ℕ), j < bank.length →
      (backtracePath bonus (predOf bank) dists i j).length = i + 1
      ∧ (∀ x ∈ backtracePath bonus (predOf bank) dists i j, x < bank.length)
      ∧ (backtracePath bonus (predOf bank) dists i j).getLast? = some j
      ∧ costFrom dists bank bonus 0
            (backtracePath bonus (predOf bank) dists i j)
          ≤ (dpRows bonus (predOf bank) dists i).getD j 0 := by
  intro i
  induction i with
  | zero =>
    intro j hj
    refine ⟨rfl, ?_, rfl, le_refl _⟩
    intro x hx
    rw [List.mem_singleton.mp hx]
    exact hj
  | succ i ih =>
    intro j hj
    have hdplen : (dpRows bonus (predOf bank) dists i).length = bank.length :=
      (dpRows_length bonus (predOf bank) dists i).trans hrow0
    have hdpne : dpRows bonus (predOf bank) dists i ≠ [] := by
      intro hcon
      have := hdplen
      rw [hcon] at this
      have hb : 0 < bank.length := lt_of_le_of_lt (Nat.zero_le j) hj
      rw [← this] at hb
      cases hb
    have hsteplen : (viterbiStep bonus (predOf bank)
        (dpRows bonus (predOf bank) dists i) (dists.getD (i + 1) [])).length
        = bank.length := by
      rw [viterbiStep, List.length_map, List.length_range, hdplen]
    have hparent : (parentRows bonus (predOf bank) dists (i + 1)).getD j 0
        = ((viterbiStep bonus (predOf bank)
            (dpRows bonus (predOf bank) dists i)
            (dists.getD (i + 1) [])).getD j (0, 0)).2 := by
      show ((viterbiStep bonus (predOf bank)
          (dpRows bonus (predOf bank) dists i)
          (dists.getD (i + 1) [])).map Prod.snd).getD j 0 = _
      exact getD_map_snd _ j (by rw [hsteplen]; exact hj)
    have hval : (dpRows bonus (predOf bank) dists (i + 1)).getD j 0
        = ((viterbiStep bonus (predOf bank)
            (dpRows bonus (predOf bank) dists i)
            (dists.getD (i + 1) [])).getD j (0, 0)).1 := by
      show ((viterbiStep bonus (predOf bank)
          (dpRows bonus (predOf bank) dists i)
          (dists.getD (i + 1) [])).map Prod.fst).getD j 0 = _
      exact getD_map_fst _ j (by rw [hsteplen]; exact hj)
    have hspec := viterbiStep_getD_spec bonus (predOf bank)
      (dpRows bonus (predOf bank) dists i) (dists.getD (i + 1) []) j
      (by rw [hdplen]; exact hj)
    have hpath : backtracePath bonus (predOf bank) dists (i + 1) j
        = backtracePath bonus (predOf bank) dists i
            ((parentRows bonus (predOf bank) dists (i + 1)).getD j 0)
          ++ [j] := rfl
    have hkb : (parentRows bonus (predOf bank) dists (i + 1)).getD j 0
        < bank.length := by
      rw [hparent]
      rcases hspec with ⟨heq, _⟩ | ⟨k0, hpk0, heq, _⟩
      · rw [heq]
        dsimp only
        rw [← hdplen]
        exact (argminFirst_spec _ hdpne).1
      · rw [heq]
        dsimp only
        exact (hpred_some j k0 hpk0).1
    obtain ⟨hlen1, hmem1, hlast1, hcost1⟩ :=
      ih ((parentRows bonus (predOf bank) dists (i + 1)).getD j 0) hkb
    refine ⟨?_, ?_, ?_, ?_⟩
    · rw [hpath, List.length_append, hlen1]
      rfl
    · rw [hpath]
      intro x hx
      rcases List.mem_append.mp hx with hx | hx
      · exact hmem1 x hx
      · rw [List.mem_singleton.mp hx]
        exact hj
    · rw [hpath, List.getLast?_concat]
    · rw [hpath, costFrom_snoc dists bank bonus _ 0 j _ hlast1,
        Nat.zero_add, hlen1, hval]
      rcases hspec with ⟨heq, _⟩ | ⟨k0, hpk0, heq, _⟩
      · -- parent is the global argmin; the subtracted pause is nonnegative
        have hpar2 : (parentRows bonus (predOf bank) dists (i + 1)).getD j 0
            = (argminFirst (dpRows bonus (predOf bank) dists i)).1 := by
          rw [hparent, heq]
        have hdpk : (dpRows bonus (predOf bank) dists i).getD
            ((parentRows bonus (predOf bank) dists (i + 1)).getD j 0) 0
            = (argminFirst (dpRows bonus (predOf bank) dists i)).2 := by
          rw [hpar2]
          exact (argminFirst_spec _ hdpne).2
        rw [heq]
        dsimp only
        have hbeta : (0 : ℚ) ≤ (if are_adjacent
            (bank.getD ((parentRows bonus (predOf bank) dists (i + 1)).getD j 0)
              default)
            (bank.getD j default) then bonus else 0) := by
          by_cases hadj2 : are_adjacent
              (bank.getD ((parentRows bonus (predOf bank) dists (i + 1)).getD j 0)
                default) (bank.getD j default)
          · rw [if_pos hadj2]; exact hbonus
          · rw [if_neg hadj2]
        have hc1 := hcost1
        rw [hdpk] at hc1
        linarith
      · have hpar2 : (parentRows bonus (predOf bank) dists (i + 1)).getD j 0
            = k0 := by
          rw [hparent, heq]
        have hadj0 := (hpred_some j k0 hpk0).2
        rw [heq]
        dsimp only
        rw [hpar2, if_pos hadj0]
        rw [hpar2] at hcost1
        linarith

theorem predOf_some (bank : List SyllableEntry) :
    ∀ j k, (predOf bank).getD j none = some k →
      k < bank.length
        ∧ are_adjacent (bank.getD k default) (bank.getD j default) := by
  intro j k h
  by_cases hj : j < bank.length
  · rw [predOf, getD_map_range _ _ _ _ hj] at h
    constructor
    · exact List.mem_range.mp (List.mem_of_find?_eq_some h)
    · have hp := List.find?_some h
      exact of_decide_eq_true hp
  · rw [predOf] at h
    rw [List.getD_eq_default] at h
    · cases h
    · rw [List.length_map, List.length_range]
      omega

theorem predOf_adj (bank : List SyllableEntry)
    (huniq : ∀ k1 k2, k1 < bank.length → k2 < bank.length →
      (bank.getD k1 default).source_path = (bank.getD k2 default).source_path →
      (bank.getD k1 default).index = (bank.getD k2 default).index → k1 = k2) :
    ∀ j k, j < bank.length → k < bank.length →
      are_adjacent (bank.getD k default) (bank.getD j default) →
      (predOf bank).getD j none = some k := by
  intro j k hj hk hadj
  rw [predOf, getD_map_range _ _ _ _ hj]
  have hex : ∃ x ∈ List.range bank.length,
      (decide (are_adjacent (bank.getD x default) (bank.getD j default)))
        = true :=
    ⟨k, List.mem_range.mpr hk, decide_eq_true hadj⟩
  have hsome := List.find?_isSome.mpr hex
  cases hfind : (List.range bank.length).find? (fun x =>
      decide (are_adjacent (bank.getD x default) (bank.getD j default))) with
  | none => rw [hfind] at hsome; cases hsome
  | some k0 =>
    have hk0b : k0 < bank.length :=
      List.mem_range.mp (List.mem_of_find?_eq_some hfind)
    have hadj0 : are_adjacent (bank.getD k0 default) (bank.getD j default) := by
      have hp := List.find?_some hfind
      exact of_decide_eq_true hp
    have hk0k : k0 = k := by
      apply huniq k0 k hk0b hk
      · exact hadj0.1.trans hadj.1.symm
      · have h1 := hadj0.2
        have h2 := hadj.2
        omega
    rw [hk0k]

/-- The path returned by match_syllables is a well-formed assignment that
minimises the total cost among all assignments, provided the bonus is
nonnegative and no two bank entries share the same (source_path, index). -/
theorem matchPath_min (targets : List (List String))
    (bank : List SyllableEntry) (stresses : Option (List (Option ℕ)))
    (bonusOpt : Option ℤ)
    (ht : targets ≠ []) (hbank : bank ≠ [])
    (hbonus : 0 ≤ bonusOpt.getD CONTINUITY_BONUS)
    (huniq : ∀ k1 k2, k1 < bank.length → k2 < bank.length →
      (bank.getD k1 default).source_path = (bank.getD k2 default).source_path →
      (bank.getD k1 default).index = (bank.getD k2 default).index → k1 = k2) :
    (matchPath targets bank stresses bonusOpt).length = targets.length
    ∧ (∀ x ∈ matchPath targets bank stresses bonusOpt, x < bank.length)
    ∧ ∀ p : List ℕ, p.length = targets.length →
        (∀ x ∈ p, x < bank.length) →
        assignmentCost (distsOf targets bank stresses) bank
            ((bonusOpt.getD CONTINUITY_BONUS : ℤ) : ℚ)
            (matchPath targets bank stresses bonusOpt)
          ≤ assignmentCost (distsOf targets bank stresses) bank
              ((bonusOpt.getD CONTINUITY_BONUS : ℤ) : ℚ) p := by
  have hnpos : 0 < targets.length := List.length_pos.mpr ht
  have hbpos : 0 < bank.length := List.length_pos.mpr hbank
  have hcond : ¬ (targets.length = 0 ∨ bank.length = 0) := by omega
  have hm : matchPath targets bank stresses bonusOpt
      = backtracePath ((bonusOpt.getD CONTINUITY_BONUS : ℤ) : ℚ) (predOf bank)
          (distsOf targets bank stresses) (targets.length - 1)
          (argminFirst (dpRows ((bonusOpt.getD CONTINUITY_BONUS : ℤ) : ℚ)
            (predOf bank) (distsOf targets bank stresses)
            (targets.length - 1))).1 := by
    rw [matchPath, if_neg hcond]
  have hrow0 : ((distsOf targets bank stresses).getD 0 []).length
      = bank.length := by
    cases targets with
    | nil => cases ht rfl
    | cons t0 ts =>
      show (distRow t0 _ bank).length = bank.length
      rw [distRow, List.length_map]
  have hqb : (0 : ℚ) ≤ ((bonusOpt.getD CONTINUITY_BONUS : ℤ) : ℚ) := by
    exact_mod_cast hbonus
  have hdplen : (dpRows ((bonusOpt.getD CONTINUITY_BONUS : ℤ) : ℚ)
      (predOf bank) (distsOf targets bank stresses)
      (targets.length - 1)).length = bank.length :=
    (dpRows_length _ _ _ _).trans hrow0
  have hdpne : dpRows ((bonusOpt.getD CONTINUITY_BONUS : ℤ) : ℚ)
      (predOf bank) (distsOf targets bank stresses)
      (targets.length - 1) ≠ [] := by
    intro hcon
    rw [hcon] at hdplen
    simp only [List.length_nil] at hdplen
    omega
  have hjb : (argminFirst (dpRows ((bonusOpt.getD CONTINUITY_BONUS : ℤ) : ℚ)
      (predOf bank) (distsOf targets bank stresses)
      (targets.length - 1))).1 < bank.length := by
    rw [← hdplen]
    exact (argminFirst_spec _ hdpne).1
  obtain ⟨hlen1, hmem1, _, hcost1⟩ := backtrace_le_dpRows
    ((bonusOpt.getD CONTINUITY_BONUS : ℤ) : ℚ)
    (distsOf targets bank stresses) bank hqb hrow0
    (predOf_some bank) (targets.length - 1) _ hjb
  have hsucc : targets.length - 1 + 1 = targets.length := by omega
  refine ⟨?_, ?_, ?_⟩
  · rw [hm, hlen1, hsucc]
  · rw [hm]
    exact hmem1
  · intro p hplen hpmem
    have hpne : p ≠ [] := by
      intro hcon
      rw [hcon] at hplen
      simp only [List.length_nil] at hplen
      omega
    obtain ⟨l, hl⟩ : ∃ l, p.getLast? = some l := by
      cases hpl : p.getLast? with
      | none => cases hpne (List.getLast?_eq_none_iff.mp hpl)
      | some l => exact ⟨l, rfl⟩
    have hlb : l < bank.length := hpmem l (List.mem_of_mem_getLast? hl)
    have hLB := dpRows_le_cost ((bonusOpt.getD CONTINUITY_BONUS : ℤ) : ℚ)
      (distsOf targets bank stresses) bank hrow0 (predOf_adj bank huniq)
      (targets.length - 1) p l (by omega) hpmem hl
    have hargle : (argminFirst (dpRows
        ((bonusOpt.getD CONTINUITY_BONUS : ℤ) : ℚ) (predOf bank)
        (distsOf targets bank stresses) (targets.length - 1))).2
        ≤ (dpRows ((bonusOpt.getD CONTINUITY_BONUS : ℤ) : ℚ) (predOf bank)
            (distsOf targets bank stresses) (targets.length - 1)).getD l 0 :=
      argminFirst_le _ _ (getD_mem_of_lt _ l 0 (by rw [hdplen]; exact hlb))
    have hargval := (argminFirst_spec _ hdpne).2
    show costFrom _ _ _ 0 (matchPath targets bank stresses bonusOpt)
        ≤ costFrom _ _ _ 0 p
    rw [hm]
    rw [hargval] at hcost1
    linarith

theorem if_lt_eq_min (b c : ℚ) : (if c < b then c else b) = min b c := by
  by_cases h : c < b
  · rw [if_pos h, min_eq_right (le_of_lt h)]
  · rw [if_neg h, min_eq_left (not_lt.mp h)]

/-- The dp rows of the matcher satisfy the Viterbi recurrence: the next value
at column j is the minimum of the best previous cost plus the distance and,
when j has a predecessor, the predecessor cost plus distance minus bonus. -/
theorem dpRows_recurrence (bonus : ℚ) (pred : List (Option ℕ))
    (dists : List (List ℚ)) (i j : ℕ)
    (hj : j < (dpRows bonus pred dists i).length) :
    (dpRows bonus pred dists (i + 1)).getD j 0
      = match pred.getD j none with
        | none => rowMinQ (dpRows bonus pred dists i)
            + (dists.getD (i + 1) []).getD j 0
        | some k => min
            (rowMinQ (dpRows bonus pred dists i)
              + (dists.getD (i + 1) []).getD j 0)
            ((dpRows bonus pred dists i).getD k 0
              + (dists.getD (i + 1) []).getD j 0 - bonus) := by
  have hval : (dpRows bonus pred dists (i + 1)).getD j 0
      = ((viterbiStep bonus pred (dpRows bonus pred dists i)
          (dists.getD (i + 1) [])).getD j (0, 0)).1 := by
    show ((viterbiStep bonus pred (dpRows bonus pred dists i)
        (dists.getD (i + 1) [])).map Prod.fst).getD j 0 = _
    refine getD_map_fst _ j ?_
    rw [viterbiStep, List.length_map, List.length_range]
    exact hj
  rw [hval, viterbiStep, getD_map_range _ _ _ _ hj]
  cases hp : pred.getD j none with
  | none =>
    simp only [hp]
    rw [argminFirst_val]
  | some k =>
    simp only [hp]
    rw [apply_ite Prod.fst]
    dsimp only
    rw [if_lt_eq_min, argminFirst_val]

theorem map_range_getD {α : Type} (f : ℕ → α) : ∀ (l : List ℕ),
    (List.range l.length).map (fun i => f (l.getD i 0)) = l.map f := by
  intro l
  induction l with
  | nil => rfl
  | cons x xs ih =>
    rw [List.length_cons, List.range_succ_eq_map, List.map_cons, List.map_map]
    rw [show ((fun i => f ((x :: xs).getD i 0)) ∘ Nat.succ)
      = (fun i => f (xs.getD i 0)) from rfl]
    rw [ih]
    rfl

/-- C1 (amended): for non-empty targets and bank, the dp of match_syllables
satisfies the Viterbi recurrence (base row equals the first distance row; each
later value is the minimum of the globally best previous cost plus distance
and, when a contiguous predecessor exists, its cost plus distance minus the
bonus), the returned path is the backtrace from the argmin of the final row,
and the emitted results follow that path; moreover — provided the bonus is
nonnegative and no two bank entries share the same (source_path, index), the
amendment the counterexample forces — the returned assignment minimises the
total cost (sum of distances minus one bonus per contiguous step) over all
assignments. -/
theorem C1_match_syllables_viterbi (targets : List (List String))
    (bank : List SyllableEntry) (stresses : Option (List (Option ℕ)))
    (bonusOpt : Option ℤ)
    (ht : targets ≠ []) (hbank : bank ≠ [])
    (hbonus : 0 ≤ bonusOpt.getD CONTINUITY_BONUS)
    (huniq : ∀ k1 ∈ List.range bank.length, ∀ k2 ∈ List.range bank.length,
      (bank.getD k1 default).source_path = (bank.getD k2 default).source_path →
      (bank.getD k1 default).index = (bank.getD k2 default).index → k1 = k2) :
    (∀ j, j < bank.length →
      (dpRows ((bonusOpt.getD CONTINUITY_BONUS : ℤ) : ℚ) (predOf bank)
          (distsOf targets bank stresses) 0).getD j 0
        = ((distsOf targets bank stresses).getD 0 []).getD j 0)
    ∧ (∀ i j, 0 < i → i < targets.length → j < bank.length →
        (dpRows ((bonusOpt.getD CONTINUITY_BONUS : ℤ) : ℚ) (predOf bank)
            (distsOf targets bank stresses) i).getD j 0
          = match (predOf bank).getD j none with
            | none => rowMinQ (dpRows ((bonusOpt.getD CONTINUITY_BONUS : ℤ) : ℚ)
                  (predOf bank) (distsOf targets bank stresses) (i - 1))
                + ((distsOf targets bank stresses).getD i []).getD j 0
            | some k => min
                (rowMinQ (dpRows ((bonusOpt.getD CONTINUITY_BONUS : ℤ) : ℚ)
                    (predOf bank) (distsOf targets bank stresses) (i - 1))
                  + ((distsOf targets bank stresses).getD i []).getD j 0)
                ((dpRows ((bonusOpt.getD CONTINUITY_BONUS : ℤ) : ℚ)
                    (predOf bank) (distsOf targets bank stresses) (i - 1)).getD k 0
                  + ((distsOf targets bank stresses).getD i []).getD j 0
                  - ((bonusOpt.getD CONTINUITY_BONUS : ℤ) : ℚ)))
    ∧ matchPath targets bank stresses bonusOpt
        = backtracePath ((bonusOpt.getD CONTINUITY_BONUS : ℤ) : ℚ)
            (predOf bank) (distsOf targets bank stresses)
            (targets.length - 1)
            (argminFirst (dpRows ((bonusOpt.getD CONTINUITY_BONUS : ℤ) : ℚ)
              (predOf bank) (distsOf targets bank stresses)
              (targets.length - 1))).1
    ∧ (matchPath targets bank stresses bonusOpt).length = targets.length
    ∧ (∀ x ∈ matchPath targets bank stresses bonusOpt, x < bank.length)
    ∧ (match_syllables targets bank stresses bonusOpt).map (fun r => r.entry)
        = (matchPath targets bank stresses bonusOpt).map
            (fun j => bank.getD j default)
    ∧ ∀ p : List ℕ, p.length = targets.length →
        (∀ x ∈ p, x < bank.length) →
        assignmentCost (distsOf targets bank stresses) bank
            ((bonusOpt.getD CONTINUITY_BONUS : ℤ) : ℚ)
            (matchPath targets bank stresses bonusOpt)
          ≤ assignmentCost (distsOf targets bank stresses) bank
              ((bonusOpt.getD CONTINUITY_BONUS : ℤ) : ℚ) p := by
  have hnpos : 0 < targets.length := List.length_pos.mpr ht
  have hbpos : 0 < bank.length := List.length_pos.mpr hbank
  have hcond : ¬ (targets.length = 0 ∨ bank.length = 0) := by omega
  have hrow0 : ((distsOf targets bank stresses).getD 0 []).length
      = bank.length := by
    cases targets with
    | nil => cases ht rfl
    | cons t0 ts =>
      show (distRow t0 _ bank).length = bank.length
      rw [distRow, List.length_map]
  have huniq2 : ∀ k1 k2, k1 < bank.length → k2 < bank.length →
      (bank.getD k1 default).source_path = (bank.getD k2 default).source_path →
      (bank.getD k1 default).index = (bank.getD k2 default).index → k1 = k2 :=
    fun k1 k2 h1 h2 => huniq k1 (List.mem_range.mpr h1) k2 (List.mem_range.mpr h2)
  obtain ⟨hlen, hmem, hopt⟩ :=
    matchPath_min targets bank stresses bonusOpt ht hbank hbonus huniq2
  refine ⟨?_, ?_, ?_, hlen, hmem, ?_, hopt⟩
  · intro j _
    rfl
  · intro i j hi _ hj
    have hi1 : i - 1 + 1 = i := by omega
    have hjlen : j < (dpRows ((bonusOpt.getD CONTINUITY_BONUS : ℤ) : ℚ)
        (predOf bank) (distsOf targets bank stresses) (i - 1)).length := by
      rw [(dpRows_length _ _ _ _).trans hrow0]
      exact hj
    have := dpRows_recurrence ((bonusOpt.getD CONTINUITY_BONUS : ℤ) : ℚ)
      (predOf bank) (distsOf targets bank stresses) (i - 1) j hjlen
    rw [hi1] at this
    exact this
  · rw [matchPath, if_neg hcond]
  · rw [match_syllables, if_neg hcond]
    rw [show ((List.range targets.length).map (fun i =>
        ({ target_phonemes := targets.getD i []
           entry := bank.getD ((matchPath targets bank stresses bonusOpt).getD i 0) default
           distance := (((distsOf targets bank stresses).getD i []).getD
              ((matchPath targets bank stresses bonusOpt).getD i 0) 0).floor
           target_index := i } : MatchResult))).map (fun r => r.entry)
      = (List.range targets.length).map (fun i =>
          bank.getD ((matchPath targets bank stresses bonusOpt).getD i 0) default)
      from by rw [List.map_map]; rfl]
    rw [← hlen]
    exact map_range_getD (fun j => bank.getD j default)
      (matchPath targets bank stresses bonusOpt)

/-- Bank for the C1 counterexample: two distinct entries share
(source_path, index) = ("a.wav", 0), so the predecessor map credits the
continuity bonus only through the first of them. -/
def cxBank : List SyllableEntry :=
  [ { phoneme_labels := ["B"], start := 0, end_ := 1, word := "b",
      stress := none, source_path := "a.wav", index := 0 },
    { phoneme_labels := ["P"], start := 0, end_ := 1, word := "p",
      stress := none, source_path := "a.wav", index := 0 },
    { phoneme_labels := ["T"], start := 1, end_ := 2, word := "t",
      stress := none, source_path := "a.wav", index := 1 } ]

/-- Targets for the C1 counterexample. -/
def cxTargets : List (List String) := [["P"], ["T"]]

/-- C1 counterexample: as literally stated — for every non-empty target and
bank the returned assignment minimises the total cost — the claim is false.
With the bank above (default bonus 7) the matcher returns the path [0, 2]
with cost 1 + 0 - 7 = -6, while the valid assignment [1, 2] costs
0 + 0 - 7 = -7: its second step is also contiguous, but the DP only credits
the bonus through pred[2] = 0, the first entry with ("a.wav", 0). -/
theorem C1_viterbi_counterexample :
    (matchPath cxTargets cxBank none none = [0, 2])
    ∧ (([1, 2] : List ℕ).length = cxTargets.length
        ∧ ∀ x ∈ ([1, 2] : List ℕ), x < cxBank.length)
    ∧ assignmentCost (distsOf cxTargets cxBank none) cxBank
        ((((none : Option ℤ).getD CONTINUITY_BONUS : ℤ) : ℚ)) [1, 2]
      < assignmentCost (distsOf cxTargets cxBank none) cxBank
          ((((none : Option ℤ).getD CONTINUITY_BONUS : ℤ) : ℚ))
          (matchPath cxTargets cxBank none none) := by
  refine ⟨?_, ⟨rfl, ?_⟩, ?_⟩
  · with_unfolding_all decide
  · intro x hx
    rcases List.mem_cons.mp hx with h | h
    · rw [h]; decide
    · rw [List.mem_singleton.mp h]; decide
  · with_unfolding_all decide

/-- Targets used by the C1 and C2 witnesses: cat then dog. -/
def c1wTargets : List (List String) := [["K", "AE1", "T"], ["D", "AO1", "G"]]

/-- Bank used by the C1 witness: cat and dog adjacent in a.wav plus a second
dog at b.wav index 0 (the bank of the matcher unit test). -/
def c1wBank : List SyllableEntry :=
  [ { phoneme_labels := ["K", "AE1", "T"], start := 0, end_ := 3 / 10,
      word := "cat", stress := some 1, source_path := "a.wav", index := 0 },
    { phoneme_labels := ["D", "AO1", "G"], start := 3 / 10, end_ := 6 / 10,
      word := "dog", stress := some 1, source_path := "a.wav", index := 1 },
    { phoneme_labels := ["D", "AO1", "G"], start := 0, end_ := 3 / 10,
      word := "dog2", stress := some 1, source_path := "b.wav", index := 0 } ]

/-- Witness for C1 (amended) at the concrete bank of the matcher unit tests:
all hypotheses hold there and the returned assignment is cost-minimal. -/
theorem C1_match_syllables_viterbi_witness :
    (c1wTargets ≠ [])
    ∧ (c1wBank ≠ [])
    ∧ 0 ≤ (none : Option ℤ).getD CONTINUITY_BONUS
    ∧ (∀ k1 ∈ List.range c1wBank.length, ∀ k2 ∈ List.range c1wBank.length,
        (c1wBank.getD k1 default).source_path
            = (c1wBank.getD k2 default).source_path →
        (c1wBank.getD k1 default).index = (c1wBank.getD k2 default).index →
        k1 = k2)
    ∧ ∀ p : List ℕ, p.length = c1wTargets.length →
        (∀ x ∈ p, x < c1wBank.length) →
        assignmentCost (distsOf c1wTargets c1wBank none) c1wBank
            ((((none : Option ℤ).getD CONTINUITY_BONUS : ℤ) : ℚ))
            (matchPath c1wTargets c1wBank none none)
          ≤ assignmentCost (distsOf c1wTargets c1wBank none) c1wBank
              ((((none : Option ℤ).getD CONTINUITY_BONUS : ℤ) : ℚ)) p := by
  refine ⟨by decide, by decide, by decide, by decide, ?_⟩
  exact (C1_match_syllables_viterbi c1wTargets c1wBank none none
    (by decide) (by decide) (by decide) (by decide)).2.2.2.2.2.2

/-- C2: for a two-syllable target and a bank holding a contiguous candidate
pair (a0, a1 adjacent in one source) plus a non-contiguous pair (c0, c1 split
across two other sources), whenever the non-contiguous pair is at least as
close at every position and its total distance advantage is strictly less
than the bonus V, match_syllables selects the contiguous pair.  The
exact-match scenario of the specification is the instance where all four
distances are zero. -/
theorem C2_continuity_preference (t0 t1 : List String)
    (a0 a1 c0 c1 : SyllableEntry) (V : ℤ)
    (hV : 0 ≤ V)
    (hadj : are_adjacent a0 a1)
    (hs1 : a0.source_path ≠ c0.source_path)
    (hs2 : a0.source_path ≠ c1.source_path)
    (hs3 : c0.source_path ≠ c1.source_path)
    (he00 : syllable_distance t0 c0.phoneme_labels
      ≤ syllable_distance t0 a0.phoneme_labels)
    (he01 : syllable_distance t0 c0.phoneme_labels
      ≤ syllable_distance t0 a1.phoneme_labels)
    (he03 : syllable_distance t0 c0.phoneme_labels
      ≤ syllable_distance t0 c1.phoneme_labels)
    (he11 : syllable_distance t1 c1.phoneme_labels
      ≤ syllable_distance t1 a1.phoneme_labels)
    (he10 : syllable_distance t1 c1.phoneme_labels
      ≤ syllable_distance t1 a0.phoneme_labels)
    (he12 : syllable_distance t1 c1.phoneme_labels
      ≤ syllable_distance t1 c0.phoneme_labels)
    (hadv : syllable_distance t0 a0.phoneme_labels
        + syllable_distance t1 a1.phoneme_labels - V
      < syllable_distance t0 c0.phoneme_labels
        + syllable_distance t1 c1.phoneme_labels) :
    matchPath [t0, t1] [a0, a1, c0, c1] none (some V) = [0, 1]
    ∧ (match_syllables [t0, t1] [a0, a1, c0, c1] none (some V)).map
        (fun r => r.entry) = [a0, a1] := by
  have hg0 : ([a0, a1, c0, c1] : List SyllableEntry).getD 0 default = a0 := rfl
  have hg1 : ([a0, a1, c0, c1] : List SyllableEntry).getD 1 default = a1 := rfl
  have hg2 : ([a0, a1, c0, c1] : List SyllableEntry).getD 2 default = c0 := rfl
  have hg3 : ([a0, a1, c0, c1] : List SyllableEntry).getD 3 default = c1 := rfl
  have hIdx : a1.index = a0.index + 1 := hadj.2
  have hSrc : a0.source_path = a1.source_path := hadj.1
  have hblen : ([a0, a1, c0, c1] : List SyllableEntry).length = 4 := rfl
  have huniq : ∀ k1 k2 : ℕ,
      k1 < ([a0, a1, c0, c1] : List SyllableEntry).length →
      k2 < ([a0, a1, c0, c1] : List SyllableEntry).length →
      (([a0, a1, c0, c1] : List SyllableEntry).getD k1 default).source_path
        = (([a0, a1, c0, c1] : List SyllableEntry).getD k2 default).source_path →
      (([a0, a1, c0, c1] : List SyllableEntry).getD k1 default).index
        = (([a0, a1, c0, c1] : List SyllableEntry).getD k2 default).index →
      k1 = k2 := by
    intro k1 k2 h1 h2 hs hi
    rw [hblen] at h1 h2
    interval_cases k1 <;> interval_cases k2 <;>
      simp only [hg0, hg1, hg2, hg3] at hs hi <;>
      first
      | rfl
      | omega
      | exact absurd hs hs1
      | exact absurd hs hs2
      | exact absurd hs hs3
      | exact absurd hs.symm hs1
      | exact absurd hs.symm hs2
      | exact absurd hs.symm hs3
      | exact absurd (hSrc.trans hs) hs1
      | exact absurd (hSrc.trans hs) hs2
      | exact absurd (hSrc.trans hs.symm) hs1
      | exact absurd (hSrc.trans hs.symm) hs2
  have hnadj : ∀ x y : ℕ, x < 4 → y < 4 → ¬ (x = 0 ∧ y = 1) →
      ¬ are_adjacent (([a0, a1, c0, c1] : List SyllableEntry).getD x default)
        (([a0, a1, c0, c1] : List SyllableEntry).getD y default) := by
    intro x y hx hy hne hcon
    obtain ⟨hs, hi⟩ := hcon
    interval_cases x <;> interval_cases y <;>
      simp only [hg0, hg1, hg2, hg3] at hs hi <;>
      first
      | exact hne ⟨rfl, rfl⟩
      | omega
      | exact absurd hs hs1
      | exact absurd hs hs2
      | exact absurd hs hs3
      | exact absurd hs.symm hs1
      | exact absurd hs.symm hs2
      | exact absurd hs.symm hs3
      | exact absurd (hSrc.trans hs) hs1
      | exact absurd (hSrc.trans hs) hs2
      | exact absurd (hSrc.trans hs.symm) hs1
      | exact absurd (hSrc.trans hs.symm) hs2
  obtain ⟨hplen, hpmem, hopt⟩ := matchPath_min [t0, t1] [a0, a1, c0, c1]
    none (some V) (by simp) (by simp) hV huniq
  have hrows : distsOf [t0, t1] [a0, a1, c0, c1] none
      = [distRow t0 none [a0, a1, c0, c1],
         distRow t1 none [a0, a1, c0, c1]] := rfl
  have hdr : ∀ t : List String, distRow t none [a0, a1, c0, c1]
      = [ ((syllable_distance t a0.phoneme_labels : ℤ) : ℚ),
          ((syllable_distance t a1.phoneme_labels : ℤ) : ℚ),
          ((syllable_distance t c0.phoneme_labels : ℤ) : ℚ),
          ((syllable_distance t c1.phoneme_labels : ℤ) : ℚ) ] := by
    intro t
    simp [distRow]
  have hcost2 : ∀ x y : ℕ,
      assignmentCost (distsOf [t0, t1] [a0, a1, c0, c1] none) [a0, a1, c0, c1]
          (((some V).getD CONTINUITY_BONUS : ℤ) : ℚ) [x, y]
        = ((distsOf [t0, t1] [a0, a1, c0, c1] none).getD 0 []).getD x 0
          - (if are_adjacent
                (([a0, a1, c0, c1] : List SyllableEntry).getD x default)
                (([a0, a1, c0, c1] : List SyllableEntry).getD y default)
             then (((some V).getD CONTINUITY_BONUS : ℤ) : ℚ) else 0)
          + ((distsOf [t0, t1] [a0, a1, c0, c1] none).getD 1 []).getD y 0 :=
    fun x y => rfl
  obtain ⟨x, y, hxy⟩ := List.length_eq_two.mp hplen
  have hx4 : x < 4 := by
    rw [← hblen]
    exact hpmem x (by rw [hxy]; exact List.mem_cons_self _ _)
  have hy4 : y < 4 := by
    rw [← hblen]
    exact hpmem y (by rw [hxy]; simp)
  have hc01 : assignmentCost (distsOf [t0, t1] [a0, a1, c0, c1] none)
      [a0, a1, c0, c1] (((some V).getD CONTINUITY_BONUS : ℤ) : ℚ) [0, 1]
      = ((syllable_distance t0 a0.phoneme_labels : ℤ) : ℚ)
        + ((syllable_distance t1 a1.phoneme_labels : ℤ) : ℚ)
        - ((V : ℤ) : ℚ) := by
    rw [hcost2 0 1, hg0, hg1, if_pos hadj, hrows]
    rw [show ([distRow t0 none [a0, a1, c0, c1],
        distRow t1 none [a0, a1, c0, c1]] : List (List ℚ)).getD 0 []
      = distRow t0 none [a0, a1, c0, c1] from rfl]
    rw [show ([distRow t0 none [a0, a1, c0, c1],
        distRow t1 none [a0, a1, c0, c1]] : List (List ℚ)).getD 1 []
      = distRow t1 none [a0, a1, c0, c1] from rfl]
    rw [hdr t0, hdr t1]
    rw [show ((some V).getD CONTINUITY_BONUS : ℤ) = V from rfl]
    rw [show ([((syllable_distance t0 a0.phoneme_labels : ℤ) : ℚ),
          ((syllable_distance t0 a1.phoneme_labels : ℤ) : ℚ),
          ((syllable_distance t0 c0.phoneme_labels : ℤ) : ℚ),
          ((syllable_distance t0 c1.phoneme_labels : ℤ) : ℚ)] : List ℚ).getD 0 0
      = ((syllable_distance t0 a0.phoneme_labels : ℤ) : ℚ) from rfl]
    rw [show ([((syllable_distance t1 a0.phoneme_labels : ℤ) : ℚ),
          ((syllable_distance t1 a1.phoneme_labels : ℤ) : ℚ),
          ((syllable_distance t1 c0.phoneme_labels : ℤ) : ℚ),
          ((syllable_distance t1 c1.phoneme_labels : ℤ) : ℚ)] : List ℚ).getD 1 0
      = ((syllable_distance t1 a1.phoneme_labels : ℤ) : ℚ) from rfl]
    ring
  have hD0 : ∀ x : ℕ, x < 4 →
      ((syllable_distance t0 c0.phoneme_labels : ℤ) : ℚ)
        ≤ ((distsOf [t0, t1] [a0, a1, c0, c1] none).getD 0 []).getD x 0 := by
    intro x hx
    rw [hrows]
    rw [show ([distRow t0 none [a0, a1, c0, c1],
        distRow t1 none [a0, a1, c0, c1]] : List (List ℚ)).getD 0 []
      = distRow t0 none [a0, a1, c0, c1] from rfl]
    rw [hdr t0]
    interval_cases x
    · show ((syllable_distance t0 c0.phoneme_labels : ℤ) : ℚ)
        ≤ ((syllable_distance t0 a0.phoneme_labels : ℤ) : ℚ)
      exact_mod_cast he00
    · show ((syllable_distance t0 c0.phoneme_labels : ℤ) : ℚ)
        ≤ ((syllable_distance t0 a1.phoneme_labels : ℤ) : ℚ)
      exact_mod_cast he01
    · exact le_refl _
    · show ((syllable_distance t0 c0.phoneme_labels : ℤ) : ℚ)
        ≤ ((syllable_distance t0 c1.phoneme_labels : ℤ) : ℚ)
      exact_mod_cast he03
  have hD1 : ∀ y : ℕ, y < 4 →
      ((syllable_distance t1 c1.phoneme_labels : ℤ) : ℚ)
        ≤ ((distsOf [t0, t1] [a0, a1, c0, c1] none).getD 1 []).getD y 0 := by
    intro y hy
    rw [hrows]
    rw [show ([distRow t0 none [a0, a1, c0, c1],
        distRow t1 none [a0, a1, c0, c1]] : List (List ℚ)).getD 1 []
      = distRow t1 none [a0, a1, c0, c1] from rfl]
    rw [hdr t1]
    interval_cases y
    · show ((syllable_distance t1 c1.phoneme_labels : ℤ) : ℚ)
        ≤ ((syllable_distance t1 a0.phoneme_labels : ℤ) : ℚ)
      exact_mod_cast he10
    · show ((syllable_distance t1 c1.phoneme_labels : ℤ) : ℚ)
        ≤ ((syllable_distance t1 a1.phoneme_labels : ℤ) : ℚ)
      exact_mod_cast he11
    · show ((syllable_distance t1 c1.phoneme_labels : ℤ) : ℚ)
        ≤ ((syllable_distance t1 c0.phoneme_labels : ℤ) : ℚ)
      exact_mod_cast he12
    · exact le_refl _
  have hle01 := hopt [0, 1] (by rfl) (by
    intro z hz
    rw [hblen]
    rcases List.mem_cons.mp hz with h | h
    · rw [h]; omega
    · rw [List.mem_singleton.mp h]; omega)
  have hxy01 : x = 0 ∧ y = 1 := by
    by_contra hne
    have hβ := hnadj x y hx4 hy4 hne
    have hcp : assignmentCost (distsOf [t0, t1] [a0, a1, c0, c1] none)
        [a0, a1, c0, c1] (((some V).getD CONTINUITY_BONUS : ℤ) : ℚ)
        (matchPath [t0, t1] [a0, a1, c0, c1] none (some V))
        = ((distsOf [t0, t1] [a0, a1, c0, c1] none).getD 0 []).getD x 0
          + ((distsOf [t0, t1] [a0, a1, c0, c1] none).getD 1 []).getD y 0 := by
      rw [hxy, hcost2 x y, if_neg hβ]
      ring
    have hadvq : ((syllable_distance t0 a0.phoneme_labels : ℤ) : ℚ)
        + ((syllable_distance t1 a1.phoneme_labels : ℤ) : ℚ) - ((V : ℤ) : ℚ)
        < ((syllable_distance t0 c0.phoneme_labels : ℤ) : ℚ)
          + ((syllable_distance t1 c1.phoneme_labels : ℤ) : ℚ) := by
      exact_mod_cast hadv
    rw [hxy] at hle01
    rw [hcost2 x y, if_neg hβ] at hle01
    rw [hc01] at hle01
    have h1 := hD0 x hx4
    have h2 := hD1 y hy4
    linarith
  obtain ⟨hx0, hy1⟩ := hxy01
  subst hx0
  subst hy1
  refine ⟨hxy, ?_⟩
  have hcond : ¬ (([t0, t1] : List (List String)).length = 0
      ∨ ([a0, a1, c0, c1] : List SyllableEntry).length = 0) := by simp
  rw [match_syllables, if_neg hcond]
  rw [show ((List.range ([t0, t1] : List (List String)).length).map (fun i =>
      ({ target_phonemes := ([t0, t1] : List (List String)).getD i []
         entry := ([a0, a1, c0, c1] : List SyllableEntry).getD
           ((matchPath [t0, t1] [a0, a1, c0, c1] none (some V)).getD i 0) default
         distance := (((distsOf [t0, t1] [a0, a1, c0, c1] none).getD i []).getD
            ((matchPath [t0, t1] [a0, a1, c0, c1] none (some V)).getD i 0) 0).floor
         target_index := i } : MatchResult))).map (fun r => r.entry)
    = [([a0, a1, c0, c1] : List SyllableEntry).getD
         ((matchPath [t0, t1] [a0, a1, c0, c1] none (some V)).getD 0 0) default,
       ([a0, a1, c0, c1] : List SyllableEntry).getD
         ((matchPath [t0, t1] [a0, a1, c0, c1] none (some V)).getD 1 0) default]
    from by rw [List.map_map]; rfl]
  rw [hxy]
  rfl

/-- Contiguous pair entry 1 for the C2 witness: cat at a.wav index 0. -/
def c2wA0 : SyllableEntry :=
  { phoneme_labels := ["K", "AE1", "T"], start := 0, end_ := 3 / 10,
    word := "cat", stress := some 1, source_path := "a.wav", index := 0 }

/-- Contiguous pair entry 2 for the C2 witness: dog at a.wav index 1. -/
def c2wA1 : SyllableEntry :=
  { phoneme_labels := ["D", "AO1", "G"], start := 3 / 10, end_ := 6 / 10,
    word := "dog", stress := some 1, source_path := "a.wav", index := 1 }

/-- Non-contiguous pair entry 1 for the C2 witness: cat at b.wav index 0. -/
def c2wC0 : SyllableEntry :=
  { phoneme_labels := ["K", "AE1", "T"], start := 0, end_ := 3 / 10,
    word := "cat2", stress := some 1, source_path := "b.wav", index := 0 }

/-- Non-contiguous pair entry 2 for the C2 witness: dog at c.wav index 0. -/
def c2wC1 : SyllableEntry :=
  { phoneme_labels := ["D", "AO1", "G"], start := 0, end_ := 3 / 10,
    word := "dog2", stress := some 1, source_path := "c.wav", index := 0 }

/-- Witness for C2 at the specification scenario: an exact contiguous pair
plus an equally-exact pair split across sources; the matcher picks the
contiguous pair. -/
theorem C2_continuity_preference_witness :
    (0 : ℤ) ≤ 7
    ∧ are_adjacent c2wA0 c2wA1
    ∧ c2wA0.source_path ≠ c2wC0.source_path
    ∧ c2wA0.source_path ≠ c2wC1.source_path
    ∧ c2wC0.source_path ≠ c2wC1.source_path
    ∧ syllable_distance ["K", "AE1", "T"] c2wC0.phoneme_labels
        ≤ syllable_distance ["K", "AE1", "T"] c2wA0.phoneme_labels
    ∧ syllable_distance ["K", "AE1", "T"] c2wC0.phoneme_labels
        ≤ syllable_distance ["K", "AE1", "T"] c2wA1.phoneme_labels
    ∧ syllable_distance ["K", "AE1", "T"] c2wC0.phoneme_labels
        ≤ syllable_distance ["K", "AE1", "T"] c2wC1.phoneme_labels
    ∧ syllable_distance ["D", "AO1", "G"] c2wC1.phoneme_labels
        ≤ syllable_distance ["D", "AO1", "G"] c2wA1.phoneme_labels
    ∧ syllable_distance ["D", "AO1", "G"] c2wC1.phoneme_labels
        ≤ syllable_distance ["D", "AO1", "G"] c2wA0.phoneme_labels
    ∧ syllable_distance ["D", "AO1", "G"] c2wC1.phoneme_labels
        ≤ syllable_distance ["D", "AO1", "G"] c2wC0.phoneme_labels
    ∧ syllable_distance ["K", "AE1", "T"] c2wA0.phoneme_labels
        + syllable_distance ["D", "AO1", "G"] c2wA1.phoneme_labels - 7
      < syllable_distance ["K", "AE1", "T"] c2wC0.phoneme_labels
        + syllable_distance ["D", "AO1", "G"] c2wC1.phoneme_labels
    ∧ (matchPath [["K", "AE1", "T"], ["D", "AO1", "G"]]
          [c2wA0, c2wA1, c2wC0, c2wC1] none (some 7) = [0, 1]
        ∧ (match_syllables [["K", "AE1", "T"], ["D", "AO1", "G"]]
            [c2wA0, c2wA1, c2wC0, c2wC1] none (some 7)).map
            (fun r => r.entry) = [c2wA0, c2wA1]) := by
  refine ⟨by decide, by decide, by decide, by decide, by decide, by decide,
    by decide, by decide, by decide, by decide, by decide, by decide, ?_⟩
  exact C2_continuity_preference ["K", "AE1", "T"] ["D", "AO1", "G"]
    c2wA0 c2wA1 c2wC0 c2wC1 7 (by decide) (by decide) (by decide) (by decide)
    (by decide) (by decide) (by decide) (by decide) (by decide) (by decide)
    (by decide) (by decide)

/-- C4: match_syllables returns the empty result set whenever the target
sequence or the bank is empty, as the specification says; match_phonemes
returns the empty result set for an empty target sequence, but for an empty
bank and a non-empty target it hits Option unwrap on None (modelled: none),
i.e. it panics instead of returning the empty result set — the code lacks
the guard match_syllables has. -/
theorem C4_matcher_empty_inputs :
    (∀ (bank : List SyllableEntry) (stresses : Option (List (Option ℕ)))
        (bonusOpt : Option ℤ),
      match_syllables [] bank stresses bonusOpt = [])
    ∧ (∀ (targets : List (List String)) (stresses : Option (List (Option ℕ)))
        (bonusOpt : Option ℤ),
      match_syllables targets [] stresses bonusOpt = [])
    ∧ (∀ bank : List SyllableEntry, match_phonemes [] bank = some [])
    ∧ match_phonemes ["K"] [] = none := by
  refine ⟨?_, ?_, ?_, rfl⟩
  · intro bank stresses bonusOpt
    rw [match_syllables]
    rw [if_pos (show ([] : List (List String)).length = 0 ∨ bank.length = 0
      from Or.inl rfl)]
  · intro targets stresses bonusOpt
    rw [match_syllables]
    rw [if_pos (show targets.length = 0
        ∨ ([] : List SyllableEntry).length = 0
      from Or.inr rfl)]
  · intro bank
    rfl

/-! ## syllabify_arpabet.rs -/

/-- Lax vowels (with stress) for the Alaska rule. -/
def SLAX : List String :=
  [ "IH1", "IH2", "EH1", "EH2", "AE1", "AE2", "AH1", "AH2", "UH1", "UH2" ]

/-- The vowel set: the base list of the source plus all SLAX members. -/
def VOWELS : List String :=
  [ "IY1", "IY2", "IY0", "EY1", "EY2", "EY0",
    "AA1", "AA2", "AA0", "ER1", "ER2", "ER0",
    "AW1", "AW2", "AW0", "AO1", "AO2", "AO0",
    "AY1", "AY2", "AY0", "OW1", "OW2", "OW0",
    "OY1", "OY2", "OY0", "IH0", "EH0", "AE0",
    "AH0", "UH0", "UW1", "UW2", "UW0", "UW",
    "IY", "EY", "AA", "ER", "AW", "AO", "AY",
    "OW", "OY", "UH", "IH", "EH", "AE", "AH" ] ++ SLAX

/-- Licit 2-consonant onsets. -/
def O2 : List (String × String) :=
  [ ("P", "R"), ("T", "R"), ("K", "R"), ("B", "R"), ("D", "R"),
    ("G", "R"), ("F", "R"), ("TH", "R"),
    ("P", "L"), ("K", "L"), ("B", "L"), ("G", "L"),
    ("F", "L"), ("S", "L"),
    ("K", "W"), ("G", "W"), ("S", "W"),
    ("S", "P"), ("S", "T"), ("S", "K"),
    ("HH", "Y"),
    ("R", "W") ]

/-- Licit 3-consonant onsets. -/
def O3 : List (String × String × String) :=
  [ ("S", "T", "R"), ("S", "K", "L"), ("T", "R", "W") ]

def is_vowel (seg : String) : Bool := VOWELS.contains seg

def is_slax (seg : String) : Bool := SLAX.contains seg

/-- A syllable decomposed into onset, nucleus, and coda. -/
abbrev SyllableParts := List String × List String × List String

/-- The two failure conditions of syllabify, abstracting the formatted error
strings of the source: a word with no vowel, and the never-expected internal
inconsistency of the final concatenation check. -/
inductive SyllabifyError where
  | noVowels (pron : List String) : SyllabifyError
  | inconsistent (pron flat : List String) : SyllabifyError
deriving DecidableEq, Repr

/-- The nucleus/interlude scan: returns the list of (interlude, vowel) pairs
in order (the interlude holds the segments since the previous vowel) and the
trailing segments after the last vowel (the final coda). -/
def split_nuclei : List String → List (List String × String) × List String
  | [] => ([], [])
  | s :: rest =>
    if is_vowel s then
      (([], s) :: (split_nuclei rest).1, (split_nuclei rest).2)
    else
      match split_nuclei rest with
      | ([], coda) => ([], s :: coda)
      | ((inter, v) :: pairs, coda) => ((s :: inter, v) :: pairs, coda)

/-- R-coloring: an interlude of length > 1 starting with R donates the R to
the end of the previous nucleus. -/
def r_color (prev_nucleus interlude : List String) :
    List String × List String :=
  if interlude.length > 1 ∧ interlude.head? = some "R" then
    (prev_nucleus ++ ["R"], interlude.tail)
  else (prev_nucleus, interlude)

/-- Y-gliding: an interlude of length > 2 ending with Y donates the Y to the
front of the next nucleus. -/
def y_glide (interlude next_nucleus : List String) :
    List String × List String :=
  if interlude.length > 2 ∧ interlude.getLast? = some "Y" then
    (interlude.dropLast, "Y" :: next_nucleus)
  else (interlude, next_nucleus)

/-- Alaska rule: with the flag set, an interlude of length > 1 starting with
S after a lax-vowel nucleus moves the S into the previous coda.  (The source
reads the last element of the nucleus; an empty nucleus cannot occur.) -/
def alaska_step (alaska_rule : Bool) (prev_nucleus interlude : List String) :
    List String × List String :=
  if interlude.length > 1 ∧ alaska_rule = true
      ∧ (match prev_nucleus.getLast? with
         | some s => is_slax s
         | none => false) = true
      ∧ interlude.head? = some "S" then
    (["S"], interlude.tail)
  else ([], interlude)

/-- Onset maximization: the longest licit onset (depth 1, 2 or 3 per the O2
and O3 tables) stays as the onset; everything left of it drains into the
previous coda. -/
def onset_max (interlude : List String) : List String × List String :=
  let depth : ℕ :=
    if interlude.length > 1 then
      if O2.contains (interlude.getD (interlude.length - 2) "",
          interlude.getD (interlude.length - 1) "") then
        if interlude.length ≥ 3
            ∧ O3.contains (interlude.getD (interlude.length - 3) "",
                interlude.getD (interlude.length - 2) "",
                interlude.getD (interlude.length - 1) "") then 3
        else 2
      else 1
    else 1
  let drain := interlude.length - depth
  (interlude.take drain, interlude.drop drain)

/-- Resolve one inter-syllable boundary: returns (extended previous nucleus,
previous coda, next onset, extended next nucleus). -/
def resolve_boundary (alaska_rule : Bool)
    (prev_nucleus interlude next_nucleus : List String) :
    List String × List String × List String × List String :=
  let rc := r_color prev_nucleus interlude
  let yg := y_glide rc.2 next_nucleus
  let al := alaska_step alaska_rule rc.1 yg.1
  let om := onset_max al.2
  (rc.1, al.1 ++ om.1, om.2, yg.2)

/-- The boundary-resolution loop: the current syllable's onset and nucleus
are carried along, each (interlude, vowel) pair closes the current syllable
and opens the next, and the final coda closes the last syllable. -/
def build_syllables (alaska_rule : Bool) :
    List String → List String → List (List String × String) → List String →
    List SyllableParts
  | cur_onset, cur_nucleus, [], final_coda =>
      [(cur_onset, cur_nucleus, final_coda)]
  | cur_onset, cur_nucleus, (inter, v) :: rest, final_coda =>
      let r := resolve_boundary alaska_rule cur_nucleus inter [v]
      (cur_onset, r.1, r.2.1)
        :: build_syllables alaska_rule r.2.2.1 r.2.2.2 rest final_coda

/-- Concatenation of all (onset, nucleus, coda) triples in order. -/
def flatten_sylls (out : List SyllableParts) : List String :=
  (out.map (fun p => p.1 ++ p.2.1 ++ p.2.2)).flatten

/-- Syllabify a CMU dictionary (ARPABET) pronunciation using the Maximum
Onset Principle, with the concatenation self-check of the source. -/
def syllabify (pron : List String) (alaska_rule : Bool) :
    Except SyllabifyError (List SyllableParts) :=
  if pron = [] then Except.ok []
  else
    match split_nuclei pron with
    | ([], _) => Except.error (SyllabifyError.noVowels pron)
    | ((inter0, v0) :: rest, coda_final) =>
      let output := build_syllables alaska_rule inter0 [v0] rest coda_final
      if flatten_sylls output = pron then Except.ok output
      else Except.error (SyllabifyError.inconsistent pron (flatten_sylls output))

/-! ### Syllabifier lemmas -/

theorem split_nuclei_flatten : ∀ pron : List String,
    ((split_nuclei pron).1.map (fun p => p.1 ++ [p.2])).flatten
        ++ (split_nuclei pron).2 = pron := by
  intro pron
  induction pron with
  | nil => rfl
  | cons s rest ih =>
    by_cases hv : is_vowel s = true
    · rw [show split_nuclei (s :: rest)
        = (([], s) :: (split_nuclei rest).1, (split_nuclei rest).2) from by
          rw [split_nuclei, if_pos hv]]
      simpa using ih
    · cases hrest : split_nuclei rest with
      | mk pairs coda =>
        cases pairs with
        | nil =>
          rw [show split_nuclei (s :: rest) = ([], s :: coda) from by
            rw [split_nuclei, if_neg hv, hrest]]
          rw [hrest] at ih
          simp only [List.map_nil, List.flatten_nil, List.nil_append] at ih ⊢
          rw [ih]
        | cons p pairs2 =>
          rw [show split_nuclei (s :: rest)
            = ((s :: p.1, p.2) :: pairs2, coda) from by
              rw [split_nuclei, if_neg hv, hrest]]
          rw [hrest] at ih
          simp only [List.map_cons, List.flatten_cons, List.cons_append,
            List.append_assoc] at ih ⊢
          rw [ih]

theorem split_nuclei_nil_iff : ∀ pron : List String,
    (split_nuclei pron).1 = [] ↔ ∀ s ∈ pron, is_vowel s = false := by
  intro pron
  induction pron with
  | nil => simp [split_nuclei]
  | cons s rest ih =>
    by_cases hv : is_vowel s = true
    · rw [show split_nuclei (s :: rest)
        = (([], s) :: (split_nuclei rest).1, (split_nuclei rest).2) from by
          rw [split_nuclei, if_pos hv]]
      constructor
      · intro hcon; cases hcon
      · intro hall
        have := hall s (List.mem_cons_self _ _)
        rw [hv] at this
        cases this
    · cases hrest : split_nuclei rest with
      | mk pairs coda =>
        cases pairs with
        | nil =>
          rw [show split_nuclei (s :: rest) = ([], s :: coda) from by
            rw [split_nuclei, if_neg hv, hrest]]
          rw [hrest] at ih
          simp only [true_iff, List.mem_cons]
          intro x hx
          rcases hx with hx | hx
          · rw [hx]
            exact Bool.eq_false_iff.mpr hv
          · exact (ih.mp rfl) x hx
        | cons p pairs2 =>
          rw [show split_nuclei (s :: rest)
            = ((s :: p.1, p.2) :: pairs2, coda) from by
              rw [split_nuclei, if_neg hv, hrest]]
          rw [hrest] at ih
          constructor
          · intro hcon; cases hcon
          · intro hall
            have hrest2 : ∀ x ∈ rest, is_vowel x = false := fun x hx =>
              hall x (List.mem_cons_of_mem _ hx)
            have := ih.mpr hrest2
            cases this

theorem r_color_concat (pn inter : List String) :
    (r_color pn inter).1 ++ (r_color pn inter).2 = pn ++ inter := by
  unfold r_color
  by_cases h : inter.length > 1 ∧ inter.head? = some "R"
  · rw [if_pos h]
    cases inter with
    | nil => cases h.2
    | cons x xs =>
      have hx : x = "R" := by
        have := h.2
        rw [show (x :: xs).head? = some x from rfl] at this
        injection this with this
      subst hx
      simp
  · rw [if_neg h]

theorem y_glide_concat (inter nn : List String) :
    (y_glide inter nn).1 ++ (y_glide inter nn).2 = inter ++ nn := by
  unfold y_glide
  by_cases h : inter.length > 2 ∧ inter.getLast? = some "Y"
  · rw [if_pos h]
    have hd : inter.dropLast ++ ["Y"] = inter := by
      have h2 := h.2
      clear h
      induction inter with
      | nil => cases h2
      | cons x xs ih =>
        cases xs with
        | nil =>
          rw [show ([x] : List String).getLast? = some x from rfl] at h2
          injection h2 with h2
          subst h2
          rfl
        | cons z zs =>
          have h3 : (z :: zs).getLast? = some "Y" :=
            List.getLast?_cons_cons.symm.trans h2
          rw [show (x :: z :: zs).dropLast = x :: (z :: zs).dropLast from rfl]
          rw [List.cons_append, ih h3]
    calc inter.dropLast ++ ("Y" :: nn)
        = (inter.dropLast ++ ["Y"]) ++ nn := by simp
    _ = inter ++ nn := by rw [hd]
  · rw [if_neg h]

theorem alaska_step_concat (a : Bool) (pn inter : List String) :
    (alaska_step a pn inter).1 ++ (alaska_step a pn inter).2 = inter := by
  unfold alaska_step
  by_cases h : inter.length > 1 ∧ a = true
      ∧ (match pn.getLast? with
         | some s => is_slax s
         | none => false) = true
      ∧ inter.head? = some "S"
  · rw [if_pos h]
    cases inter with
    | nil => cases h.2.2.2
    | cons x xs =>
      have hx : x = "S" := by
        have := h.2.2.2
        rw [show (x :: xs).head? = some x from rfl] at this
        injection this with this
      subst hx
      rfl
  · rw [if_neg h]
    rfl

theorem onset_max_concat (inter : List String) :
    (onset_max inter).1 ++ (onset_max inter).2 = inter := by
  unfold onset_max
  exact List.take_append_drop _ inter

theorem resolve_boundary_concat (a : Bool) (pn inter nn : List String) :
    (resolve_boundary a pn inter nn).1
      ++ ((resolve_boundary a pn inter nn).2.1
        ++ ((resolve_boundary a pn inter nn).2.2.1
          ++ (resolve_boundary a pn inter nn).2.2.2))
    = pn ++ (inter ++ nn) := by
  unfold resolve_boundary
  have hA := r_color_concat pn inter
  have hB := y_glide_concat (r_color pn inter).2 nn
  have hC := alaska_step_concat a (r_color pn inter).1
    (y_glide (r_color pn inter).2 nn).1
  have hD := onset_max_concat
    (alaska_step a (r_color pn inter).1 (y_glide (r_color pn inter).2 nn).1).2
  calc (r_color pn inter).1
      ++ (((alaska_step a (r_color pn inter).1
            (y_glide (r_color pn inter).2 nn).1).1
          ++ (onset_max (alaska_step a (r_color pn inter).1
            (y_glide (r_color pn inter).2 nn).1).2).1)
        ++ ((onset_max (alaska_step a (r_color pn inter).1
            (y_glide (r_color pn inter).2 nn).1).2).2
          ++ (y_glide (r_color pn inter).2 nn).2))
      = (r_color pn inter).1
        ++ ((alaska_step a (r_color pn inter).1
              (y_glide (r_color pn inter).2 nn).1).1
          ++ (((onset_max (alaska_step a (r_color pn inter).1
              (y_glide (r_color pn inter).2 nn).1).2).1
            ++ (onset_max (alaska_step a (r_color pn inter).1
              (y_glide (r_color pn inter).2 nn).1).2).2)
            ++ (y_glide (r_color pn inter).2 nn).2)) := by
        simp [List.append_assoc]
  _ = (r_color pn inter).1
        ++ ((alaska_step a (r_color pn inter).1
              (y_glide (r_color pn inter).2 nn).1).1
          ++ ((alaska_step a (r_color pn inter).1
              (y_glide (r_color pn inter).2 nn).1).2
            ++ (y_glide (r_color pn inter).2 nn).2)) := by rw [hD]
  _ = (r_color pn inter).1
        ++ (((alaska_step a (r_color pn inter).1
              (y_glide (r_color pn inter).2 nn).1).1
          ++ (alaska_step a (r_color pn inter).1
              (y_glide (r_color pn inter).2 nn).1).2)
            ++ (y_glide (r_color pn inter).2 nn).2) := by
        rw [List.append_assoc]
  _ = (r_color pn inter).1
        ++ ((y_glide (r_color pn inter).2 nn).1
          ++ (y_glide (r_color pn inter).2 nn).2) := by rw [hC]
  _ = (r_color pn inter).1 ++ ((r_color pn inter).2 ++ nn) := by rw [hB]
  _ = ((r_color pn inter).1 ++ (r_color pn inter).2) ++ nn := by
        rw [List.append_assoc]
  _ = (pn ++ inter) ++ nn := by rw [hA]
  _ = pn ++ (inter ++ nn) := by rw [List.append_assoc]

theorem build_syllables_flatten (alaska_rule : Bool) :
    ∀ (pairs : List (List String × String))
      (cur_onset cur_nucleus final_coda : List String),
    flatten_sylls (build_syllables alaska_rule cur_onset cur_nucleus pairs
        final_coda)
      = cur_onset ++ (cur_nucleus
        ++ ((pairs.map (fun p => p.1 ++ [p.2])).flatten ++ final_coda)) := by
  intro pairs
  induction pairs with
  | nil =>
    intro cur_onset cur_nucleus final_coda
    show (cur_onset ++ cur_nucleus ++ final_coda) ++ [] = _
    simp [List.append_assoc]
  | cons p rest ih =>
    intro cur_onset cur_nucleus final_coda
    show flatten_sylls ((cur_onset,
        (resolve_boundary alaska_rule cur_nucleus p.1 [p.2]).1,
        (resolve_boundary alaska_rule cur_nucleus p.1 [p.2]).2.1)
      :: build_syllables alaska_rule
          (resolve_boundary alaska_rule cur_nucleus p.1 [p.2]).2.2.1
          (resolve_boundary alaska_rule cur_nucleus p.1 [p.2]).2.2.2
          rest final_coda) = _
    rw [show flatten_sylls ((cur_onset,
        (resolve_boundary alaska_rule cur_nucleus p.1 [p.2]).1,
        (resolve_boundary alaska_rule cur_nucleus p.1 [p.2]).2.1)
      :: build_syllables alaska_rule
          (resolve_boundary alaska_rule cur_nucleus p.1 [p.2]).2.2.1
          (resolve_boundary alaska_rule cur_nucleus p.1 [p.2]).2.2.2
          rest final_coda)
      = (cur_onset ++ (resolve_boundary alaska_rule cur_nucleus p.1 [p.2]).1
          ++ (resolve_boundary alaska_rule cur_nucleus p.1 [p.2]).2.1)
        ++ flatten_sylls (build_syllables alaska_rule
          (resolve_boundary alaska_rule cur_nucleus p.1 [p.2]).2.2.1
          (resolve_boundary alaska_rule cur_nucleus p.1 [p.2]).2.2.2
          rest final_coda) from rfl]
    rw [ih]
    have hres := resolve_boundary_concat alaska_rule cur_nucleus p.1 [p.2]
    calc (cur_onset ++ (resolve_boundary alaska_rule cur_nucleus p.1 [p.2]).1
          ++ (resolve_boundary alaska_rule cur_nucleus p.1 [p.2]).2.1)
        ++ ((resolve_boundary alaska_rule cur_nucleus p.1 [p.2]).2.2.1
          ++ ((resolve_boundary alaska_rule cur_nucleus p.1 [p.2]).2.2.2
            ++ ((rest.map (fun p => p.1 ++ [p.2])).flatten ++ final_coda)))
        = cur_onset
          ++ ((resolve_boundary alaska_rule cur_nucleus p.1 [p.2]).1
            ++ ((resolve_boundary alaska_rule cur_nucleus p.1 [p.2]).2.1
              ++ ((resolve_boundary alaska_rule cur_nucleus p.1 [p.2]).2.2.1
                ++ (resolve_boundary alaska_rule cur_nucleus p.1 [p.2]).2.2.2)))
          ++ ((rest.map (fun p => p.1 ++ [p.2])).flatten ++ final_coda) := by
          simp [List.append_assoc]
    _ = cur_onset ++ (cur_nucleus ++ (p.1 ++ [p.2]))
          ++ ((rest.map (fun p => p.1 ++ [p.2])).flatten ++ final_coda) := by
          rw [hres]
    _ = cur_onset ++ (cur_nucleus
          ++ (((p :: rest).map (fun p => p.1 ++ [p.2])).flatten
            ++ final_coda)) := by
          rw [List.map_cons, List.flatten_cons]
          simp [List.append_assoc]

/-- C3: for every phoneme sequence containing at least one vowel symbol of
the fixed vowel set, syllabify returns Ok for either value of the
alaska_rule flag, and the concatenation of onset ++ nucleus ++ coda over the
returned syllables reproduces the input exactly. -/
theorem C3_syllabify_concatenation (pron : List String) (alaska_rule : Bool)
    (hvowel : ∃ s ∈ pron, is_vowel s = true) :
    ∃ out, syllabify pron alaska_rule = Except.ok out
      ∧ flatten_sylls out = pron := by
  have hne : pron ≠ [] := by
    intro hcon
    obtain ⟨s, hs, _⟩ := hvowel
    rw [hcon] at hs
    cases hs
  have hpairs : (split_nuclei pron).1 ≠ [] := by
    intro hcon
    obtain ⟨s, hs, hv⟩ := hvowel
    have := (split_nuclei_nil_iff pron).mp hcon s hs
    rw [hv] at this
    cases this
  obtain ⟨i0, v0, rest, coda, hsplit⟩ : ∃ i0 v0 rest coda,
      split_nuclei pron = ((i0, v0) :: rest, coda) := by
    cases hsp : split_nuclei pron with
    | mk pairs coda =>
      cases pairs with
      | nil => rw [hsp] at hpairs; cases hpairs rfl
      | cons p rest =>
        obtain ⟨a, b⟩ := p
        exact ⟨a, b, rest, coda, rfl⟩
  have hflat : flatten_sylls
      (build_syllables alaska_rule i0 [v0] rest coda) = pron := by
    rw [build_syllables_flatten]
    have hsf := split_nuclei_flatten pron
    rw [hsplit] at hsf
    simp only [List.map_cons, List.flatten_cons, List.append_assoc] at hsf
    simpa [List.append_assoc] using hsf
  refine ⟨build_syllables alaska_rule i0 [v0] rest coda, ?_, hflat⟩
  rw [syllabify, if_neg hne]
  rw [show (match split_nuclei pron with
    | ([], _) => Except.error (SyllabifyError.noVowels pron)
    | ((inter0, v0) :: rest, coda_final) =>
      let output := build_syllables alaska_rule inter0 [v0] rest coda_final
      if flatten_sylls output = pron then Except.ok output
      else Except.error
        (SyllabifyError.inconsistent pron (flatten_sylls output)))
    = (if flatten_sylls (build_syllables alaska_rule i0 [v0] rest coda) = pron
       then Except.ok (build_syllables alaska_rule i0 [v0] rest coda)
       else Except.error (SyllabifyError.inconsistent pron
         (flatten_sylls (build_syllables alaska_rule i0 [v0] rest coda))))
    from by rw [hsplit]]
  rw [if_pos hflat]

/-- Witness for C3 at the concrete input of the unit tests: K AE1 T. -/
theorem C3_syllabify_concatenation_witness :
    (∃ s ∈ (["K", "AE1", "T"] : List String), is_vowel s = true)
    ∧ ∃ out, syllabify ["K", "AE1", "T"] true = Except.ok out
        ∧ flatten_sylls out = ["K", "AE1", "T"] := by
  refine ⟨⟨"AE1", by decide, by decide⟩, ?_⟩
  exact C3_syllabify_concatenation ["K", "AE1", "T"] true
    ⟨"AE1", by decide, by decide⟩

/-- C5 counterexample: the empty phoneme sequence contains no vowel, yet
syllabify returns Ok [] instead of the claimed no-nucleus failure (the
source returns Ok(vec![]) on empty input before looking for nuclei). -/
theorem C5_syllabify_counterexample :
    (∀ s ∈ ([] : List String), is_vowel s = false)
    ∧ syllabify [] true = Except.ok []
    ∧ ∀ e, syllabify [] true ≠ Except.error e := by
  refine ⟨fun s hs => absurd hs (List.not_mem_nil s), rfl, ?_⟩
  intro e hcon
  cases hcon

/-- C5 (amended): for every non-empty phoneme sequence containing no vowel
symbol, syllabify fails with the no-nucleus (noVowels) error. -/
theorem C5_syllabify_no_vowels (pron : List String) (alaska_rule : Bool)
    (hne : pron ≠ []) (hnov : ∀ s ∈ pron, is_vowel s = false) :
    syllabify pron alaska_rule
      = Except.error (SyllabifyError.noVowels pron) := by
  have hpairs : (split_nuclei pron).1 = [] :=
    (split_nuclei_nil_iff pron).mpr hnov
  rw [syllabify, if_neg hne]
  rw [show (match split_nuclei pron with
    | ([], _) => Except.error (SyllabifyError.noVowels pron)
    | ((inter0, v0) :: rest, coda_final) =>
      let output := build_syllables alaska_rule inter0 [v0] rest coda_final
      if flatten_sylls output = pron then Except.ok output
      else Except.error
        (SyllabifyError.inconsistent pron (flatten_sylls output)))
    = Except.error (SyllabifyError.noVowels pron)
    from by
      cases hsp : split_nuclei pron with
      | mk pairs coda =>
        cases pairs with
        | nil => rfl
        | cons p rest2 =>
          rw [hsp] at hpairs
          cases hpairs]

/-- Witness for C5 (amended) at the concrete input of the unit tests:
S T R has no vowel and fails with the no-nucleus error. -/
theorem C5_syllabify_no_vowels_witness :
    ((["S", "T", "R"] : List String) ≠ [])
    ∧ (∀ s ∈ (["S", "T", "R"] : List String), is_vowel s = false)
    ∧ syllabify ["S", "T", "R"] true
        = Except.error (SyllabifyError.noVowels ["S", "T", "R"]) := by
  refine ⟨by decide, by decide, ?_⟩
  exact C5_syllabify_no_vowels ["S", "T", "R"] true (by decide) (by decide)
